import Mathlib

/-!
Verification development for the Plex-Transfer-Manager backend.

The definitions below are a shallow embedding of the JavaScript sources:
  src/backend/src/services/transfer-manager.js  (TransferManager class)
  src/backend/src/services/ssh-manager.js       (rsync progress parsing)
  src/backend/src/routes/transfers.js           (POST /api/transfers handler)

Conventions of the embedding:
  - JavaScript strings are Lean String values; regex and replace
    operations on them are modelled character by character on List Char.
  - Absent or undefined object fields are Option values; JavaScript
    truthiness of a string field (undefined and the empty string are
    falsy) is the predicate truthy below.
  - The uuid generator is modelled by a fresh-natural counter, Date.now
    by a logical clock that advances once per external event.
  - The asynchronous parts of startTransfer (everything after the await
    of startRsyncTransfer) are modelled as explicit events acting on a
    list of pending executions, each remembering the server arguments
    the code closed over.
-/

namespace PTM

/-! ## JavaScript string helpers -/

/-- Truthiness of a JavaScript string-or-undefined value: undefined and
the empty string are falsy. -/
def truthy : Option String → Bool
  | none => false
  | some s => !(s = "")

/-- The JavaScript expression a or-else b on string fields: yields a when a
is truthy, otherwise yields b (even when b is falsy). -/
def jsOr (a b : Option String) : Option String :=
  if truthy a then a else b

/-- Rendering of a possibly-undefined string into a template literal:
undefined prints as the string undefined. -/
def renderJs : Option String → String
  | none => "undefined"
  | some s => s

/-- List-level string prefix test, the semantics of String.startsWith. -/
def listStartsWith : List Char → List Char → Bool
  | _, [] => true
  | [], _ :: _ => false
  | a :: as, b :: bs => a = b && listStartsWith as bs

/-- The JavaScript expression s.replace(pat, empty) for a plain string pat:
removes the first occurrence of pat from s, or leaves s unchanged when pat
does not occur or is empty. -/
def dropFirstOcc : List Char → List Char → List Char
  | [], _ => []
  | c :: rest, pat =>
    if pat ≠ [] ∧ listStartsWith (c :: rest) pat = true then
      (c :: rest).drop pat.length
    else
      c :: dropFirstOcc rest pat

/-- The regex replace of leading slashes: s.replace of one-or-more leading
slash characters with the empty string. -/
def stripLeadingSlashes (s : List Char) : List Char :=
  s.dropWhile (fun c => c = '/')

/-- The global regex replace collapsing every run of slashes to one slash. -/
def collapseSlashes : List Char → List Char
  | [] => []
  | [c] => [c]
  | c1 :: c2 :: rest =>
    if c1 = '/' ∧ c2 = '/' then collapseSlashes (c2 :: rest)
    else c1 :: collapseSlashes (c2 :: rest)

/-- The last component of sourcePath.split(slash): the substring after the
final slash, or the whole string when no slash occurs. -/
def lastSegment (s : List Char) : List Char :=
  (s.reverse.takeWhile (fun c => !(c = '/'))).reverse

/-! ## Path Mapper (buildDestPath, transfer-manager.js lines 87 to 125) -/

/-- The mediaPaths table of a server: categorized base directories, each
possibly undefined. -/
structure MediaPaths where
  movies : Option String
  tv : Option String
  root : Option String
deriving DecidableEq, Repr

/-- The media type classification computed by buildDestPath. -/
inductive MediaType where
  | movies
  | tv
  | root
deriving DecidableEq, Repr

/-- Field selection on a MediaPaths table by media type. -/
def catOf (mp : MediaPaths) : MediaType → Option String
  | .movies => mp.movies
  | .tv => mp.tv
  | .root => mp.root

/-- The classification phase of buildDestPath (lines 88 to 112): find the
matching source category by string-prefix test, in the fixed order movies,
tv, root, and compute the relative path; with no match, fall back to the
basename and the root category. -/
def classifySource (sourcePath : String) (src : MediaPaths) : List Char × MediaType :=
  let sp := sourcePath.toList
  if truthy src.movies = true ∧ listStartsWith sp (renderJs src.movies).toList = true then
    (stripLeadingSlashes (dropFirstOcc sp (renderJs src.movies).toList), .movies)
  else if truthy src.tv = true ∧ listStartsWith sp (renderJs src.tv).toList = true then
    (stripLeadingSlashes (dropFirstOcc sp (renderJs src.tv).toList), .tv)
  else if truthy src.root = true ∧ listStartsWith sp (renderJs src.root).toList = true then
    (stripLeadingSlashes (dropFirstOcc sp (renderJs src.root).toList), .root)
  else
    (lastSegment sp, .root)

/-- The destination-base resolution of buildDestPath (lines 114 to 122):
the same category when the destination defines it (truthily), otherwise
the chain root or-else movies or-else tv. -/
def destBaseFor (mt : MediaType) (dst : MediaPaths) : Option String :=
  if mt = .movies ∧ truthy dst.movies = true then dst.movies
  else if mt = .tv ∧ truthy dst.tv = true then dst.tv
  else jsOr dst.root (jsOr dst.movies dst.tv)

/-- buildDestPath (transfer-manager.js lines 87 to 125): classify the source
path, resolve the destination base, join with a slash and collapse duplicate
slashes. -/
def buildDestPath (sourcePath : String) (src dst : MediaPaths) : String :=
  let rm := classifySource sourcePath src
  let base := destBaseFor rm.2 dst
  String.mk (collapseSlashes ((renderJs base).toList ++ '/' :: rm.1))

/-! ## Rsync progress parsing (ssh-manager.js lines 281 to 306)

The stream data handler matches each stdout chunk against the regex
  (\d+(?:,\d+)*)\s+(\d+)%\s+([\d.]+[KMG]?B\/s)\s+(\d+:\d+:\d+)
taking the leftmost match, and fires the progress callback only when the
percentage differs from the last reported one.  The regex is embedded as
a small backtracking matcher whose alternative order (greedy repetition,
leftmost start position) is that of JavaScript regex search. -/

/-- Regular-expression fragments used by the progress pattern. -/
inductive RE where
  | eps
  | cls (p : Char → Bool)
  | seq (a b : RE)
  | opt (a : RE)
  | star (a : RE)

/-- All ways a starred fragment can consume a prefix, longest first, given
the matcher of the fragment; every repetition must consume at least one
character, and the fuel bounds the number of repetitions. -/
def starSplits (f : List Char → List (List Char × List Char)) :
    Nat → List Char → List (List Char × List Char)
  | 0, s => [([], s)]
  | n + 1, s =>
    (((f s).filter (fun pr => !pr.1.isEmpty)).flatMap fun pr =>
      (starSplits f n pr.2).map fun qr => (pr.1 ++ qr.1, qr.2))
    ++ [([], s)]

/-- All ways a fragment can consume a prefix of the input, in the priority
order of a backtracking regex engine (greedy, leftmost alternative first).
Each result is the consumed prefix paired with the remaining input. -/
def splits : RE → List Char → List (List Char × List Char)
  | .eps, s => [([], s)]
  | .cls _, [] => []
  | .cls p, c :: rest => if p c then [([c], rest)] else []
  | .seq a b, s =>
    (splits a s).flatMap fun pr =>
      (splits b pr.2).map fun qr => (pr.1 ++ qr.1, qr.2)
  | .opt a, s => splits a s ++ [([], s)]
  | .star a, s => starSplits (splits a) s.length s

/-- First result of f on the elements of a list, in order. -/
def firstSome : List α → (α → Option β) → Option β
  | [], _ => none
  | a :: rest, f =>
    match f a with
    | some b => some b
    | none => firstSome rest f

/-- Match a sequence of regex components at the start of the input with
backtracking, collecting the substrings consumed by the components marked
as capture groups.  Returns the captures of the first full match in
priority order. -/
def matchComps : List (Bool × RE) → List Char → Option (List (List Char))
  | [], _ => some []
  | (cap, re) :: rest, s =>
    firstSome (splits re s) fun pr =>
      (matchComps rest pr.2).map fun caps =>
        if cap then pr.1 :: caps else caps

/-- Leftmost regex search: try each start position left to right, the
semantics of the JavaScript text.match call without the global flag. -/
def matchFrom (comps : List (Bool × RE)) : List Char → Option (List (List Char))
  | [] => matchComps comps []
  | c :: rest =>
    match matchComps comps (c :: rest) with
    | some caps => some caps
    | none => matchFrom comps rest

/-- The character class backslash-d of JavaScript regexes. -/
def isDigitC (c : Char) : Bool := decide ('0' ≤ c ∧ c ≤ '9')

/-- The whitespace class backslash-s of JavaScript regexes, restricted to
the ASCII whitespace characters. -/
def isSpaceC (c : Char) : Bool :=
  decide (c = ' ' ∨ c = '\t' ∨ c = '\n' ∨ c = '\r' ∨ c = '\x0b' ∨ c = '\x0c')

/-- One-or-more repetition of a fragment. -/
def rePlus (r : RE) : RE := .seq r (.star r)

/-- One or more digits. -/
def reDigits : RE := rePlus (.cls isDigitC)

/-- Capture group one: digits with optional thousands separators. -/
def reGroup1 : RE := .seq reDigits (.star (.seq (.cls (fun c => c = ',')) reDigits))

/-- One or more whitespace characters. -/
def reWS : RE := rePlus (.cls isSpaceC)

/-- Capture group three: the rate, digits or dots, an optional K M or G
unit letter, then the literal characters B slash s. -/
def reRate : RE :=
  .seq (rePlus (.cls (fun c => isDigitC c || c = '.')))
    (.seq (.opt (.cls (fun c => c = 'K' ∨ c = 'M' ∨ c = 'G')))
      (.seq (.cls (fun c => c = 'B')) (.seq (.cls (fun c => c = '/')) (.cls (fun c => c = 's')))))

/-- Capture group four: the eta, three digit runs separated by colons. -/
def reEta : RE :=
  .seq reDigits (.seq (.cls (fun c => c = ':'))
    (.seq reDigits (.seq (.cls (fun c => c = ':')) reDigits)))

/-- The full progress pattern with its four capture groups (the percent
sign after group two is matched outside the capture). -/
def progressPattern : List (Bool × RE) :=
  [(true, reGroup1), (false, reWS), (true, reDigits), (false, .cls (fun c => c = '%')),
   (false, reWS), (true, reRate), (false, reWS), (true, reEta)]

/-- Numeric value of a digit string, the behavior of parseInt on an
all-digit input. -/
def digitsToNat (s : List Char) : Nat :=
  s.foldl (fun acc c => acc * 10 + (c.toNat - '0'.toNat)) 0

/-- A structured progress sample as built by the data handler. -/
structure Progress where
  transferred : Nat
  percentage : Nat
  speed : String
  eta : String
deriving DecidableEq, Repr

/-- The per-chunk parse of the data handler (ssh-manager.js lines 281 to
296): leftmost regex match, thousands separators stripped from group one by
the global comma replace, groups one and two read by parseInt, groups three
and four kept as strings. -/
def progressMatch (text : String) : Option Progress :=
  match matchFrom progressPattern text.toList with
  | some [g1, g2, g3, g4] =>
    some { transferred := digitsToNat (g1.filter (fun c => !(c = ','))),
           percentage := digitsToNat g2,
           speed := String.mk g3,
           eta := String.mk g4 }
  | _ => none

/-- One step of the data handler state (ssh-manager.js lines 289 to 305):
given the last reported progress, process one chunk, returning the new
last-reported value and the list of callback invocations (empty or a
singleton).  The callback fires only when there was no previous sample or
the percentage changed. -/
def handleChunk (last : Option Progress) (text : String) : Option Progress × List Progress :=
  match progressMatch text with
  | none => (last, [])
  | some p =>
    match last with
    | none => (some p, [p])
    | some lp =>
      if lp.percentage ≠ p.percentage then (some p, [p]) else (last, [])

/-- Process a list of stdout chunks in order, starting from no reported
progress, and collect every callback invocation. -/
def handleChunks (chunks : List String) : List Progress :=
  (chunks.foldl
    (fun acc text =>
      let r := handleChunk acc.1 text
      (r.1, acc.2 ++ r.2))
    ((none : Option Progress), ([] : List Progress))).2

/-! ## The TransferManager state machine (transfer-manager.js)

The class state is the transfers Map (an insertion-ordered association
list), the FIFO queue of ids, the activeTransfers Set (a duplicate-free
list), maxConcurrent, plus the model-level pending list of in-flight
rsync executions (the suspended startTransfer continuations, each
remembering the sourceServer and destServer arguments it closed over),
a fresh-id counter standing for uuidv4 and a logical clock standing for
Date.now. -/

/-- The status strings of a transfer record. -/
inductive Status where
  | queued
  | active
  | completed
  | failed
  | cancelled
  | skipped
deriving DecidableEq, Repr

/-- The progress snapshot stored inside a transfer record. -/
structure ProgressSnap where
  percentage : Nat
  transferred : Nat
  speed : Option String
  eta : Option String
deriving DecidableEq, Repr

/-- A server configuration as seen by the TransferManager: its id and its
mediaPaths table (ssh endpoint data is irrelevant to the claims). -/
structure Server where
  id : String
  mediaPaths : MediaPaths
deriving DecidableEq, Repr

/-- A file object of a submitted batch. -/
structure FileEntry where
  path : String
  name : String
  size : Nat
deriving DecidableEq, Repr

/-- A transfer record (transfer-manager.js lines 44 to 63). -/
structure Transfer where
  id : Nat
  sourceServerId : String
  destServerId : String
  sourcePath : String
  destPath : String
  filename : String
  size : Nat
  status : Status
  progress : ProgressSnap
  error : Option String
  createdAt : Nat
  startedAt : Option Nat
  completedAt : Option Nat
deriving DecidableEq, Repr

/-- An in-flight rsync execution: the suspended part of startTransfer
after its await, remembering the transfer id and the server arguments the
call closed over. -/
structure PendingExec where
  id : Nat
  src : Server
  dst : Server
deriving DecidableEq, Repr

/-- The mutable state of the TransferManager singleton. -/
structure MState where
  transfers : List (Nat × Transfer)
  queue : List Nat
  activeTransfers : List Nat
  maxConcurrent : Nat
  pending : List PendingExec
  nextId : Nat
  clock : Nat
deriving DecidableEq, Repr

/-- Lookup in the transfers Map: first pair with the given key. -/
def lookupRec : List (Nat × Transfer) → Nat → Option Transfer
  | [], _ => none
  | kt :: rest, id => if kt.1 = id then some kt.2 else lookupRec rest id

/-- Map.set: replace the pair with the given key in place, or append a new
pair at the end (insertion order preserved). -/
def setRecord : List (Nat × Transfer) → Nat → Transfer → List (Nat × Transfer)
  | [], id, t => [(id, t)]
  | kt :: rest, id, t => if kt.1 = id then (id, t) :: rest else kt :: setRecord rest id t

/-- Set.add on the activeTransfers set. -/
def setAdd (l : List Nat) (x : Nat) : List Nat :=
  if x ∈ l then l else l ++ [x]

/-- Set.delete on the activeTransfers set. -/
def setDelete (l : List Nat) (x : Nat) : List Nat :=
  l.filter (fun y => decide (y ≠ x))

/-- getTransfer (lines 256 to 258). -/
def findTransfer (s : MState) (id : Nat) : Option Transfer :=
  lookupRec s.transfers id

/-- The synchronous prefix of startTransfer (lines 153 to 185): look the
record up, mark it active, stamp its start time, and launch the rsync
execution for it with the server arguments of this call, which becomes a
pending execution.  A missing record returns early (lines 156 to 158). -/
def startTransferSync (s : MState) (id : Nat) (src dst : Server) : MState :=
  match findTransfer s id with
  | none => s
  | some t =>
    let t1 := { t with status := Status.active, startedAt := some s.clock }
    { s with transfers := setRecord s.transfers id t1,
             pending := s.pending ++ [{ id := id, src := src, dst := dst }] }

/-- The while loop of processQueue (lines 132 to 145), with fuel equal to
the queue length: while the queue is nonempty and the active set is below
maxConcurrent, pop the head; skip it if missing or no longer queued; else
add it to the active set and start it with the servers of this call. -/
def processQueueAux : Nat → MState → Server → Server → MState
  | 0, s, _, _ => s
  | fuel + 1, s, src, dst =>
    match s.queue with
    | [] => s
    | id :: rest =>
      if s.activeTransfers.length < s.maxConcurrent then
        let s1 : MState := { s with queue := rest }
        match lookupRec s1.transfers id with
        | none => processQueueAux fuel s1 src dst
        | some t =>
          if t.status = Status.queued then
            let s2 := { s1 with activeTransfers := setAdd s1.activeTransfers id }
            processQueueAux fuel (startTransferSync s2 id src dst) src dst
          else processQueueAux fuel s1 src dst
      else s

/-- processQueue (lines 132 to 145). -/
def processQueue (s : MState) (src dst : Server) : MState :=
  processQueueAux s.queue.length s src dst

/-- The per-file creation loop of createTransfers (lines 39 to 71): a fresh
id, a record with status queued and a destPath computed by buildDestPath,
appended to the transfers Map and the queue. -/
def createLoop : MState → Server → Server → List FileEntry → List Nat × MState
  | s, _, _, [] => ([], s)
  | s, src, dst, f :: rest =>
    let id := s.nextId
    let t : Transfer :=
      { id := id, sourceServerId := src.id, destServerId := dst.id,
        sourcePath := f.path,
        destPath := buildDestPath f.path src.mediaPaths dst.mediaPaths,
        filename := f.name, size := f.size, status := Status.queued,
        progress := { percentage := 0, transferred := 0, speed := none, eta := none },
        error := none, createdAt := s.clock, startedAt := none, completedAt := none }
    let s1 : MState :=
      { s with transfers := setRecord s.transfers id t,
               queue := s.queue ++ [id], nextId := s.nextId + 1 }
    let r := createLoop s1 src dst rest
    (id :: r.1, r.2)

/-- createTransfers (lines 36 to 77): create one queued record per file,
then run processQueue with the servers of this submission; the created ids
are returned to the caller. -/
def createTransfers (s : MState) (src dst : Server) (files : List FileEntry) :
    List Nat × MState :=
  let r := createLoop s src dst files
  (r.1, processQueue r.2 src dst)

/-- The resumption of startTransfer after its await settles (lines 186 to
210): on success mark the record completed with percentage forced to 100,
on failure mark it failed with the error message; in both cases this is
done on the record object captured before the await, so it only affects
the Map when the id is still present; finally remove the id from the
active set and run processQueue with the servers of the original call. -/
def finishTransfer (s : MState) (id : Nat) (res : Option String) (src dst : Server) : MState :=
  let s1 :=
    match findTransfer s id with
    | none => s
    | some t =>
      let t1 :=
        match res with
        | none =>
          { t with status := Status.completed, completedAt := some s.clock,
                   progress := { t.progress with percentage := 100 } }
        | some msg =>
          { t with status := Status.failed, error := some msg,
                   completedAt := some s.clock }
      { s with transfers := setRecord s.transfers id t1 }
  let s2 := { s1 with activeTransfers := setDelete s1.activeTransfers id }
  processQueue s2 src dst

/-- The progress callback of startTransfer (lines 168 to 176): overwrite
the progress snapshot of the captured record. -/
def applyProgress (s : MState) (id : Nat) (p : Progress) : MState :=
  match findTransfer s id with
  | none => s
  | some t =>
    let snap : ProgressSnap :=
      { percentage := p.percentage, transferred := p.transferred,
        speed := some p.speed, eta := some p.eta }
    { s with transfers := setRecord s.transfers id { t with progress := snap } }

/-- cancelTransfer (lines 219 to 249): throw when the id is unknown; a
queued record is removed from the queue and marked cancelled (true); an
active record is marked cancelled and removed from the active set, while
its rsync process keeps running (true); any other status returns false
and changes nothing. -/
def cancelTransfer (s : MState) (id : Nat) : Except String (Bool × MState) :=
  match findTransfer s id with
  | none => Except.error "Transfer not found"
  | some t =>
    if t.status = Status.queued then
      Except.ok (true,
        { s with queue := s.queue.erase id,
                 transfers := setRecord s.transfers id
                   { t with status := Status.cancelled, completedAt := some s.clock } })
    else if t.status = Status.active then
      Except.ok (true,
        { s with transfers := setRecord s.transfers id
                   { t with status := Status.cancelled, completedAt := some s.clock },
                 activeTransfers := setDelete s.activeTransfers id })
    else
      Except.ok (false, s)

/-- setMaxConcurrent (lines 25 to 27). -/
def setMaxConcurrent (s : MState) (n : Nat) : MState :=
  { s with maxConcurrent := n }

/-- The deletion predicate of clearOldTransfers (lines 311 to 319):
terminal status, truthy completedAt, and older than maxAge. -/
def shouldClear (now maxAge : Nat) (t : Transfer) : Bool :=
  (decide (t.status = Status.completed) || decide (t.status = Status.failed)
    || decide (t.status = Status.cancelled) || decide (t.status = Status.skipped))
  && (match t.completedAt with
      | none => false
      | some c => decide (c ≠ 0) && decide (now - c > maxAge))

/-- clearOldTransfers (lines 307 to 326): delete every record matching the
predicate from the transfers Map. -/
def clearOldTransfers (s : MState) (maxAge : Nat) : MState :=
  { s with transfers := s.transfers.filter (fun kt => !shouldClear s.clock maxAge kt.2) }

/-- getStatistics (lines 289 to 301). -/
structure Stats where
  total : Nat
  queued : Nat
  active : Nat
  completed : Nat
  failed : Nat
  cancelled : Nat
  skipped : Nat
deriving DecidableEq, Repr

/-- Count of records with a given status. -/
def countStatus (s : MState) (st : Status) : Nat :=
  (s.transfers.filter (fun kt => decide (kt.2.status = st))).length

/-- getStatistics (lines 289 to 301): per-status counts over the Map. -/
def getStatistics (s : MState) : Stats :=
  { total := s.transfers.length,
    queued := countStatus s Status.queued,
    active := countStatus s Status.active,
    completed := countStatus s Status.completed,
    failed := countStatus s Status.failed,
    cancelled := countStatus s Status.cancelled,
    skipped := countStatus s Status.skipped }

/-- Number of records whose status is active. -/
def countActive (s : MState) : Nat :=
  countStatus s Status.active

/-- Remove the first pending execution with the given id. -/
def removeFirstPending : List PendingExec → Nat → List PendingExec
  | [], _ => []
  | pe :: rest, id => if pe.id = id then rest else pe :: removeFirstPending rest id

/-- The external and asynchronous events the manager state reacts to:
a batch submission, the settling of an in-flight rsync execution (none
for success, an error message for failure), a progress chunk of an
in-flight execution, a cancellation request, a runtime change of the
concurrency bound, and a retention sweep. -/
inductive Event where
  | submit (src dst : Server) (files : List FileEntry)
  | finish (id : Nat) (res : Option String)
  | progress (id : Nat) (p : Progress)
  | cancel (id : Nat)
  | setMax (n : Nat)
  | clearOld (maxAge : Nat)
deriving DecidableEq, Repr

/-- One event acting on the state; the logical clock advances first.
A finish or progress event is enabled only for an id with an in-flight
execution; a finish removes that pending execution and runs the
resumption with the servers it closed over. -/
def step (s0 : MState) (e : Event) : MState :=
  let s : MState := { s0 with clock := s0.clock + 1 }
  match e with
  | .submit src dst files => (createTransfers s src dst files).2
  | .finish id res =>
    match s.pending.find? (fun pe => decide (pe.id = id)) with
    | none => s
    | some pe =>
      finishTransfer { s with pending := removeFirstPending s.pending id } id res pe.src pe.dst
  | .progress id p =>
    match s.pending.find? (fun pe => decide (pe.id = id)) with
    | none => s
    | some _ => applyProgress s id p
  | .cancel id =>
    match cancelTransfer s id with
    | .ok r => r.2
    | .error _ => s
  | .setMax n => setMaxConcurrent s n
  | .clearOld maxAge => clearOldTransfers s maxAge

/-- Run a sequence of events. -/
def run (s : MState) (es : List Event) : MState :=
  es.foldl step s

/-- The constructor state (lines 5 to 11): empty Map, empty queue, empty
active set, maxConcurrent three. -/
def init : MState :=
  { transfers := [], queue := [], activeTransfers := [], maxConcurrent := 3,
    pending := [], nextId := 0, clock := 0 }

/-! ## Concrete fixtures used by witnesses and counterexamples -/

/-- The source category table of the path-mapping scenario. -/
def pathsA : MediaPaths := { movies := some "/a/movies", tv := some "/a/tv", root := some "/a" }

/-- The destination category table of the path-mapping scenario. -/
def pathsB : MediaPaths := { movies := some "/b/Movies", tv := some "/b/TV", root := some "/b" }

/-- A further category table for a second host pair. -/
def pathsC : MediaPaths := { movies := some "/c/movies", tv := some "/c/tv", root := some "/c" }

/-- A further category table for a second host pair. -/
def pathsD : MediaPaths := { movies := some "/d/movies", tv := some "/d/tv", root := some "/d" }

/-- Concrete server A. -/
def srvA : Server := { id := "A", mediaPaths := pathsA }

/-- Concrete server B. -/
def srvB : Server := { id := "B", mediaPaths := pathsB }

/-- Concrete server C. -/
def srvC : Server := { id := "C", mediaPaths := pathsC }

/-- Concrete server D. -/
def srvD : Server := { id := "D", mediaPaths := pathsD }

/-- A concrete file entry. -/
def fileE1 : FileEntry := { path := "/a/movies/X/f.mkv", name := "f.mkv", size := 100 }

/-- A concrete file entry. -/
def fileE2 : FileEntry := { path := "/a/tv/S/e1.mkv", name := "e1.mkv", size := 200 }

/-- A concrete file entry. -/
def fileE3 : FileEntry := { path := "/a/other/g.mkv", name := "g.mkv", size := 300 }

/-- A concrete file entry. -/
def fileE4 : FileEntry := { path := "/a/movies/Y/h.mkv", name := "h.mkv", size := 400 }

/-! ## Lemmas about the Map and Set operations -/

theorem lookupRec_setRecord_self (l : List (Nat × Transfer)) (id : Nat) (t : Transfer) :
    lookupRec (setRecord l id t) id = some t := by
  induction l with
  | nil => simp [setRecord, lookupRec]
  | cons kt rest ih =>
    by_cases h : kt.1 = id
    · simp [setRecord, h, lookupRec]
    · simp [setRecord, h, lookupRec, ih]

theorem lookupRec_setRecord_ne (l : List (Nat × Transfer)) (id j : Nat) (t : Transfer)
    (h : j ≠ id) : lookupRec (setRecord l id t) j = lookupRec l j := by
  have hij : ¬ id = j := fun hh => h hh.symm
  induction l with
  | nil => simp [setRecord, lookupRec, hij]
  | cons kt rest ih =>
    by_cases hk : kt.1 = id
    · rw [setRecord, if_pos hk]
      rw [lookupRec, if_neg hij, lookupRec, if_neg (hk ▸ hij)]
    · rw [setRecord, if_neg hk]
      by_cases hj : kt.1 = j
      · rw [lookupRec, if_pos hj, lookupRec, if_pos hj]
      · rw [lookupRec, if_neg hj, lookupRec, if_neg hj, ih]

theorem mem_setRecord {kt : Nat × Transfer} {l : List (Nat × Transfer)} {id : Nat}
    {t : Transfer} (h : kt ∈ setRecord l id t) : kt = (id, t) ∨ kt ∈ l := by
  induction l with
  | nil => simpa [setRecord] using h
  | cons kt' rest ih =>
    by_cases hk : kt'.1 = id
    · simp only [setRecord, hk, if_pos rfl] at h
      rcases List.mem_cons.mp h with h1 | h1
      · exact Or.inl h1
      · exact Or.inr (List.mem_cons_of_mem _ h1)
    · simp only [setRecord, hk, if_neg hk] at h
      rcases List.mem_cons.mp h with h1 | h1
      · exact Or.inr (h1 ▸ List.mem_cons_self _ _)
      · rcases ih h1 with h2 | h2
        · exact Or.inl h2
        · exact Or.inr (List.mem_cons_of_mem _ h2)

theorem lookupRec_mem {l : List (Nat × Transfer)} {id : Nat} {t : Transfer}
    (h : lookupRec l id = some t) : (id, t) ∈ l := by
  induction l with
  | nil => simp [lookupRec] at h
  | cons kt rest ih =>
    by_cases hk : kt.1 = id
    · simp only [lookupRec, if_pos hk] at h
      have hkt : kt = (id, t) := by
        cases kt; cases h; cases hk; rfl
      exact List.mem_cons.mpr (Or.inl hkt.symm)
    · simp only [lookupRec, if_neg hk] at h
      exact List.mem_cons_of_mem _ (ih h)

theorem mem_keys_of_lookupRec {l : List (Nat × Transfer)} {id : Nat} {t : Transfer}
    (h : lookupRec l id = some t) : id ∈ l.map Prod.fst := by
  have := lookupRec_mem h
  exact List.mem_map.mpr ⟨(id, t), this, rfl⟩

theorem lookupRec_eq_none_iff {l : List (Nat × Transfer)} {id : Nat} :
    lookupRec l id = none ↔ id ∉ l.map Prod.fst := by
  induction l with
  | nil => simp [lookupRec]
  | cons kt rest ih =>
    by_cases hk : kt.1 = id
    · simp [lookupRec, hk]
    · have : ¬ id = kt.1 := fun hh => hk hh.symm
      simp [lookupRec, hk, ih, this]

theorem keys_setRecord_of_mem {l : List (Nat × Transfer)} {id : Nat} {t : Transfer}
    (h : id ∈ l.map Prod.fst) :
    (setRecord l id t).map Prod.fst = l.map Prod.fst := by
  induction l with
  | nil => simp at h
  | cons kt rest ih =>
    by_cases hk : kt.1 = id
    · simp [setRecord, hk]
    · have : id ∈ rest.map Prod.fst := by
        rcases List.mem_map.mp h with ⟨p, hp, he⟩
        rcases List.mem_cons.mp hp with h1 | h1
        · exact absurd (h1 ▸ he) hk
        · exact List.mem_map.mpr ⟨p, h1, he⟩
      simp [setRecord, hk, ih this]

theorem setRecord_of_not_mem {l : List (Nat × Transfer)} {id : Nat} {t : Transfer}
    (h : id ∉ l.map Prod.fst) : setRecord l id t = l ++ [(id, t)] := by
  induction l with
  | nil => simp [setRecord]
  | cons kt rest ih =>
    have hk : ¬ kt.1 = id := fun hh => h (by simp [hh])
    have : id ∉ rest.map Prod.fst := fun hh => h (by simp [hh])
    simp [setRecord, hk, ih this]

theorem lookupRec_of_mem_nodup {l : List (Nat × Transfer)} {j : Nat} {u : Transfer}
    (h : (l.map Prod.fst).Nodup) (hm : (j, u) ∈ l) : lookupRec l j = some u := by
  induction l with
  | nil => simp at hm
  | cons kt rest ih =>
    rcases List.mem_cons.mp hm with h1 | h1
    · simp [lookupRec, ← h1]
    · have hk : ¬ kt.1 = j := by
        intro hh
        have : j ∈ rest.map Prod.fst := List.mem_map.mpr ⟨(j, u), h1, rfl⟩
        simp only [List.map_cons, List.nodup_cons] at h
        exact h.1 (hh ▸ this)
      have hrest : (rest.map Prod.fst).Nodup := by
        simp only [List.map_cons, List.nodup_cons] at h
        exact h.2
      simp [lookupRec, hk, ih hrest h1]

theorem lookupRec_filter_some {l : List (Nat × Transfer)} {p : Nat × Transfer → Bool}
    {id : Nat} {t : Transfer} (hnd : (l.map Prod.fst).Nodup)
    (h : lookupRec (l.filter p) id = some t) : lookupRec l id = some t := by
  induction l with
  | nil => simp [lookupRec] at h
  | cons kt rest ih =>
    simp only [List.map_cons, List.nodup_cons] at hnd
    by_cases hp : p kt
    · rw [List.filter_cons_of_pos hp] at h
      by_cases hk : kt.1 = id
      · simpa [lookupRec, hk] using h
      · simp only [lookupRec, if_neg hk] at h ⊢
        exact ih hnd.2 h
    · rw [List.filter_cons_of_neg hp] at h
      have h2 : lookupRec rest id = some t := ih hnd.2 h
      have hmem : id ∈ rest.map Prod.fst := mem_keys_of_lookupRec h2
      have hk : ¬ kt.1 = id := fun hh => hnd.1 (hh ▸ hmem)
      simp only [lookupRec, if_neg hk]
      exact h2

theorem lookupRec_filter_of_mem {l : List (Nat × Transfer)} {p : Nat × Transfer → Bool}
    {id : Nat} {t : Transfer} (hnd : (l.map Prod.fst).Nodup)
    (h : lookupRec l id = some t) (hp : p (id, t) = true) :
    lookupRec (l.filter p) id = some t := by
  induction l with
  | nil => simp [lookupRec] at h
  | cons kt rest ih =>
    simp only [List.map_cons, List.nodup_cons] at hnd
    by_cases hk : kt.1 = id
    · simp only [lookupRec, if_pos hk] at h
      have hkt : kt = (id, t) := by
        cases kt; cases h; cases hk; rfl
      rw [List.filter_cons_of_pos (hkt ▸ hp), hkt]
      simp [lookupRec]
    · simp only [lookupRec, if_neg hk] at h
      by_cases hpk : p kt
      · rw [List.filter_cons_of_pos hpk]
        simp only [lookupRec, if_neg hk]
        exact ih hnd.2 h
      · rw [List.filter_cons_of_neg hpk]
        exact ih hnd.2 h

theorem keys_filter_nodup {l : List (Nat × Transfer)} {p : Nat × Transfer → Bool}
    (hnd : (l.map Prod.fst).Nodup) : ((l.filter p).map Prod.fst).Nodup :=
  ((List.filter_sublist l).map Prod.fst).nodup hnd

theorem mem_setAdd {l : List Nat} {x j : Nat} : j ∈ setAdd l x ↔ j ∈ l ∨ j = x := by
  by_cases h : x ∈ l
  · simp only [setAdd, if_pos h]
    constructor
    · exact Or.inl
    · rintro (h1 | rfl)
      · exact h1
      · exact h
  · simp [setAdd, if_neg h]

theorem setAdd_nodup {l : List Nat} {x : Nat} (h : l.Nodup) : (setAdd l x).Nodup := by
  by_cases hm : x ∈ l
  · simpa [setAdd, hm] using h
  · simp only [setAdd, if_neg hm]
    simpa [List.nodup_append] using ⟨h, hm⟩

theorem length_setAdd_le (l : List Nat) (x : Nat) :
    (setAdd l x).length ≤ l.length + 1 := by
  by_cases hm : x ∈ l
  · rw [setAdd, if_pos hm]
    omega
  · rw [setAdd, if_neg hm]
    simp

theorem mem_setDelete {l : List Nat} {x j : Nat} :
    j ∈ setDelete l x ↔ j ∈ l ∧ j ≠ x := by
  simp [setDelete, List.mem_filter]

theorem setDelete_nodup {l : List Nat} {x : Nat} (h : l.Nodup) : (setDelete l x).Nodup :=
  h.filter _

theorem length_setDelete_le (l : List Nat) (x : Nat) :
    (setDelete l x).length ≤ l.length :=
  List.length_filter_le _ _

theorem removeFirstPending_sublist (l : List PendingExec) (id : Nat) :
    (removeFirstPending l id).Sublist l := by
  induction l with
  | nil => simp [removeFirstPending]
  | cons pe rest ih =>
    by_cases h : pe.id = id
    · simp only [removeFirstPending, if_pos h]
      exact (List.sublist_cons_self pe rest)
    · simp only [removeFirstPending, if_neg h]
      exact ih.cons₂ pe

theorem not_mem_removeFirstPending_ids {l : List PendingExec} {id : Nat}
    (h : (l.map PendingExec.id).Nodup) :
    id ∉ (removeFirstPending l id).map PendingExec.id := by
  induction l with
  | nil => simp [removeFirstPending]
  | cons pe rest ih =>
    simp only [List.map_cons, List.nodup_cons] at h
    by_cases hk : pe.id = id
    · simp only [removeFirstPending, if_pos hk]
      exact hk ▸ h.1
    · simp only [removeFirstPending, if_neg hk, List.map_cons, List.mem_cons]
      rintro (h1 | h1)
      · exact hk h1.symm
      · exact ih h.2 h1

/-! ## The reachable-state invariant of the TransferManager -/

/-- Internal consistency of a manager state: keys of the Map are distinct,
the active set is duplicate-free and holds exactly the ids of records with
status active, every key is below the fresh-id counter, and in-flight
executions are per-id unique with records that are active or cancelled
(cancelled when the transfer was cancelled while its rsync still runs). -/
structure Inv (s : MState) : Prop where
  keysNodup : (s.transfers.map Prod.fst).Nodup
  activeNodup : s.activeTransfers.Nodup
  activeSound : ∀ id, id ∈ s.activeTransfers →
    ∃ t, lookupRec s.transfers id = some t ∧ t.status = Status.active
  activeComplete : ∀ id t, lookupRec s.transfers id = some t →
    t.status = Status.active → id ∈ s.activeTransfers
  freshKeys : ∀ id, id ∈ s.transfers.map Prod.fst → id < s.nextId
  pendingNodup : (s.pending.map PendingExec.id).Nodup
  pendingStatus : ∀ pe, pe ∈ s.pending → ∀ t, lookupRec s.transfers pe.id = some t →
    t.status = Status.active ∨ t.status = Status.cancelled
  pendingLt : ∀ pe, pe ∈ s.pending → pe.id < s.nextId

/-- The active-count bound: size of the active set at most maxConcurrent. -/
def BoundOk (s : MState) : Prop :=
  s.activeTransfers.length ≤ s.maxConcurrent

theorem inv_of_queue {s : MState} (h : Inv s) (q : List Nat) : Inv { s with queue := q } :=
  ⟨h.keysNodup, h.activeNodup, h.activeSound, h.activeComplete, h.freshKeys,
   h.pendingNodup, h.pendingStatus, h.pendingLt⟩

/-- A pending execution never refers to a queued record, hence the id of a
queued record is not in the pending list. -/
theorem not_pending_of_queued {s : MState} (h : Inv s) {id : Nat} {t : Transfer}
    (hl : lookupRec s.transfers id = some t) (ht : t.status = Status.queued) :
    ∀ pe, pe ∈ s.pending → pe.id ≠ id := by
  intro pe hpe he
  rcases h.pendingStatus pe hpe t (he ▸ hl) with h1 | h1 <;> rw [ht] at h1 <;> cases h1

/-- The id of a queued record is not in the active set. -/
theorem not_active_of_queued {s : MState} (h : Inv s) {id : Nat} {t : Transfer}
    (hl : lookupRec s.transfers id = some t) (ht : t.status = Status.queued) :
    id ∉ s.activeTransfers := by
  intro hm
  rcases h.activeSound id hm with ⟨u, hu, hua⟩
  rw [hl] at hu
  cases hu
  rw [ht] at hua
  cases hua

/-- Admission of a queued record preserves the invariant: the record is
added to the active set, marked active, and gets a pending execution. -/
theorem admit_inv {s : MState} {id : Nat} {src dst : Server} {t : Transfer}
    (h : Inv s) (hl : lookupRec s.transfers id = some t) (ht : t.status = Status.queued) :
    Inv (startTransferSync { s with activeTransfers := setAdd s.activeTransfers id }
          id src dst) := by
  have hnact : id ∉ s.activeTransfers := not_active_of_queued h hl ht
  have hnpend : ∀ pe, pe ∈ s.pending → pe.id ≠ id := not_pending_of_queued h hl ht
  have hkey : id ∈ s.transfers.map Prod.fst := mem_keys_of_lookupRec hl
  have hstep : startTransferSync { s with activeTransfers := setAdd s.activeTransfers id }
      id src dst =
      { s with activeTransfers := setAdd s.activeTransfers id,
               transfers := setRecord s.transfers id
                 { t with status := Status.active, startedAt := some s.clock },
               pending := s.pending ++ [{ id := id, src := src, dst := dst }] } := by
    simp only [startTransferSync, findTransfer]
    rw [hl]
  rw [hstep]
  constructor
  · simpa [keys_setRecord_of_mem hkey] using h.keysNodup
  · exact setAdd_nodup h.activeNodup
  · intro j hj
    rcases mem_setAdd.mp hj with hj1 | hj1
    · rcases h.activeSound j hj1 with ⟨u, hu, hua⟩
      have hne : j ≠ id := fun he => hnact (he ▸ hj1)
      exact ⟨u, by simpa [lookupRec_setRecord_ne _ _ _ _ hne] using hu, hua⟩
    · subst hj1
      exact ⟨_, lookupRec_setRecord_self _ _ _, rfl⟩
  · intro j u hu hua
    by_cases hje : j = id
    · exact mem_setAdd.mpr (Or.inr hje)
    · rw [lookupRec_setRecord_ne _ _ _ _ hje] at hu
      exact mem_setAdd.mpr (Or.inl (h.activeComplete j u hu hua))
  · intro j hj
    rw [keys_setRecord_of_mem hkey] at hj
    exact h.freshKeys j hj
  · show ((s.pending ++ [_]).map PendingExec.id).Nodup
    rw [List.map_append]
    refine List.Nodup.append h.pendingNodup (List.nodup_singleton _) ?_
    intro a ha hb
    rcases List.mem_map.mp ha with ⟨pe, hpe, he⟩
    rw [List.map_singleton, List.mem_singleton] at hb
    exact hnpend pe hpe (by rw [he, hb])
  · intro pe hpe u hu
    rcases List.mem_append.mp hpe with hpe1 | hpe1
    · have hne : pe.id ≠ id := hnpend pe hpe1
      rw [lookupRec_setRecord_ne _ _ _ _ hne] at hu
      exact h.pendingStatus pe hpe1 u hu
    · have hpee : pe = { id := id, src := src, dst := dst } := by simpa using hpe1
      subst hpee
      simp only at hu
      rw [lookupRec_setRecord_self] at hu
      cases hu
      exact Or.inl rfl
  · intro pe hpe
    rcases List.mem_append.mp hpe with hpe1 | hpe1
    · exact h.pendingLt pe hpe1
    · have hpee : pe = { id := id, src := src, dst := dst } := by simpa using hpe1
      subst hpee
      exact h.freshKeys id hkey

/-- The processQueue loop preserves the invariant. -/
theorem processQueueAux_inv (fuel : Nat) (src dst : Server) :
    ∀ s : MState, Inv s → Inv (processQueueAux fuel s src dst) := by
  induction fuel with
  | zero => intro s h; exact h
  | succ fuel ih =>
    intro s h
    simp only [processQueueAux]
    split
    · exact h
    · rename_i id rest _hq
      split
      · split
        · exact ih _ (inv_of_queue h rest)
        · rename_i t hlk
          split
          · rename_i hst
            exact ih _ (admit_inv (inv_of_queue h rest) hlk hst)
          · exact ih _ (inv_of_queue h rest)
      · exact h

/-- processQueue preserves the invariant. -/
theorem processQueue_inv {s : MState} (src dst : Server) (h : Inv s) :
    Inv (processQueue s src dst) :=
  processQueueAux_inv _ src dst s h

/-- The processQueue loop preserves the active-count bound: a record is
admitted only while the active set is strictly below maxConcurrent. -/
theorem processQueueAux_bound (fuel : Nat) (src dst : Server) :
    ∀ s : MState, BoundOk s → BoundOk (processQueueAux fuel s src dst) := by
  induction fuel with
  | zero => intro s h; exact h
  | succ fuel ih =>
    intro s h
    simp only [processQueueAux]
    split
    · exact h
    · rename_i id rest _hq
      split
      · rename_i hb
        split
        · exact ih _ h
        · rename_i t hlk
          split
          · apply ih
            show BoundOk (startTransferSync _ id src dst)
            have hlen := length_setAdd_le s.activeTransfers id
            simp only [startTransferSync, findTransfer]
            split
            · show (setAdd s.activeTransfers id).length ≤ s.maxConcurrent
              omega
            · show (setAdd s.activeTransfers id).length ≤ s.maxConcurrent
              omega
          · exact ih _ h
      · exact h

/-- processQueue preserves the active-count bound. -/
theorem processQueue_bound {s : MState} (src dst : Server) (h : BoundOk s) :
    BoundOk (processQueue s src dst) :=
  processQueueAux_bound _ src dst s h

/-- The processQueue loop never removes a record, touches no record other
than those it admits, and admission only turns a queued record active. -/
theorem processQueueAux_lookup (fuel : Nat) (src dst : Server) :
    ∀ (s : MState) (id : Nat) (t : Transfer), lookupRec s.transfers id = some t →
      ∃ t', lookupRec (processQueueAux fuel s src dst).transfers id = some t' ∧
        (t' = t ∨ (t.status = Status.queued ∧ t'.status = Status.active)) := by
  induction fuel with
  | zero => intro s id t h; exact ⟨t, h, Or.inl rfl⟩
  | succ fuel ih =>
    intro s id t h
    simp only [processQueueAux]
    split
    · exact ⟨t, h, Or.inl rfl⟩
    · rename_i qid rest _hq
      split
      · split
        · exact ih _ _ _ h
        · rename_i u hlk
          split
          · rename_i hst
            have hstep : (startTransferSync
                { s with queue := rest, activeTransfers := setAdd s.activeTransfers qid }
                qid src dst).transfers =
                setRecord s.transfers qid
                  { u with status := Status.active, startedAt := some s.clock } := by
              simp only [startTransferSync, findTransfer]
              rw [hlk]
            by_cases hid : id = qid
            · subst hid
              have hut : u = t := by
                rw [h] at hlk
                exact (Option.some.inj hlk).symm
              subst hut
              have hnew : lookupRec (startTransferSync
                  { s with queue := rest, activeTransfers := setAdd s.activeTransfers id }
                  id src dst).transfers id =
                  some { u with status := Status.active, startedAt := some s.clock } := by
                rw [hstep]
                exact lookupRec_setRecord_self _ _ _
              rcases ih _ _ _ hnew with ⟨t', ht', hc⟩
              refine ⟨t', ht', Or.inr ⟨hst, ?_⟩⟩
              rcases hc with hc | hc
              · rw [hc]
              · exact hc.2
            · have hold : lookupRec (startTransferSync
                  { s with queue := rest, activeTransfers := setAdd s.activeTransfers qid }
                  qid src dst).transfers id = some t := by
                rw [hstep]
                rw [lookupRec_setRecord_ne _ _ _ _ hid]
                exact h
              exact ih _ _ _ hold
          · exact ih _ _ _ h
      · exact ⟨t, h, Or.inl rfl⟩

/-- The creation loop of createTransfers returns one id per file. -/
theorem createLoop_length (files : List FileEntry) :
    ∀ (s : MState) (src dst : Server), (createLoop s src dst files).1.length = files.length := by
  induction files with
  | nil => intro s src dst; simp [createLoop]
  | cons f rest ih =>
    intro s src dst
    simp [createLoop, ih]

/-- The creation loop leaves every record with a key below the original
fresh-id counter untouched. -/
theorem createLoop_preserves (files : List FileEntry) :
    ∀ (s : MState) (src dst : Server) (id : Nat) (t : Transfer), id < s.nextId →
      lookupRec s.transfers id = some t →
      lookupRec (createLoop s src dst files).2.transfers id = some t := by
  induction files with
  | nil => intro s src dst id t _ h; exact h
  | cons f rest ih =>
    intro s src dst id t hlt h
    simp only [createLoop]
    apply ih
    · show id < s.nextId + 1
      omega
    · show lookupRec (setRecord s.transfers s.nextId _) id = some t
      rw [lookupRec_setRecord_ne _ _ _ _ (by omega : id ≠ s.nextId)]
      exact h

/-- Every id returned by the creation loop resolves to a record with
status queued in the state the loop returns. -/
theorem createLoop_new_queued (files : List FileEntry) :
    ∀ (s : MState) (src dst : Server) (id : Nat), id ∈ (createLoop s src dst files).1 →
      ∃ t, lookupRec (createLoop s src dst files).2.transfers id = some t ∧
        t.status = Status.queued := by
  induction files with
  | nil => intro s src dst id h; simp [createLoop] at h
  | cons f rest ih =>
    intro s src dst id h
    simp only [createLoop, List.mem_cons] at h
    rcases h with h | h
    · subst h
      simp only [createLoop]
      exact ⟨_, createLoop_preserves rest _ src dst s.nextId _ (Nat.lt_succ_self _)
        (lookupRec_setRecord_self _ _ _), rfl⟩
    · simp only [createLoop]
      exact ih _ _ _ _ h

/-- The creation loop preserves the invariant: each new record has a fresh
key and status queued. -/
theorem createLoop_inv (files : List FileEntry) :
    ∀ (s : MState) (src dst : Server), Inv s → Inv (createLoop s src dst files).2 := by
  induction files with
  | nil => intro s src dst h; exact h
  | cons f rest ih =>
    intro s src dst h
    simp only [createLoop]
    apply ih
    have hfresh : s.nextId ∉ s.transfers.map Prod.fst := by
      intro hm
      exact absurd (h.freshKeys _ hm) (by omega)
    constructor
    · show ((setRecord s.transfers s.nextId _).map Prod.fst).Nodup
      rw [setRecord_of_not_mem hfresh, List.map_append]
      refine List.Nodup.append h.keysNodup (List.nodup_singleton _) ?_
      intro a ha hb
      simp only [List.map_singleton, List.mem_singleton] at hb
      subst hb
      exact hfresh ha
    · exact h.activeNodup
    · intro j hj
      rcases h.activeSound j hj with ⟨u, hu, hua⟩
      have hne : j ≠ s.nextId := by
        have := h.freshKeys j (mem_keys_of_lookupRec hu)
        omega
      exact ⟨u, by
        show lookupRec (setRecord s.transfers s.nextId _) j = some u
        rw [lookupRec_setRecord_ne _ _ _ _ hne]
        exact hu, hua⟩
    · intro j u hu hua
      by_cases hje : j = s.nextId
      · subst hje
        rw [show lookupRec (setRecord s.transfers s.nextId _) s.nextId = some _ from
          lookupRec_setRecord_self _ _ _] at hu
        cases hu
        cases hua
      · rw [show lookupRec (setRecord s.transfers s.nextId _) j = lookupRec s.transfers j from
          lookupRec_setRecord_ne _ _ _ _ hje] at hu
        exact h.activeComplete j u hu hua
    · intro j hj
      show j < s.nextId + 1
      by_cases hje : j = s.nextId
      · omega
      · have : j ∈ s.transfers.map Prod.fst := by
          rcases List.mem_map.mp hj with ⟨p, hp, he⟩
          rcases mem_setRecord hp with h1 | h1
          · subst h1
            exact absurd he.symm hje
          · exact List.mem_map.mpr ⟨p, h1, he⟩
        have := h.freshKeys j this
        omega
    · exact h.pendingNodup
    · intro pe hpe u hu
      have hne : pe.id ≠ s.nextId := by
        have := h.pendingLt pe hpe
        omega
      rw [show lookupRec (setRecord s.transfers s.nextId _) pe.id = lookupRec s.transfers pe.id
        from lookupRec_setRecord_ne _ _ _ _ hne] at hu
      exact h.pendingStatus pe hpe u hu
    · intro pe hpe
      have := h.pendingLt pe hpe
      show pe.id < s.nextId + 1
      omega

/-- Replacing a record by one with the same status preserves the
invariant (the progress callback case). -/
theorem replace_same_status_inv {s : MState} {id : Nat} {t t1 : Transfer}
    (h : Inv s) (hl : lookupRec s.transfers id = some t) (hst : t1.status = t.status) :
    Inv { s with transfers := setRecord s.transfers id t1 } := by
  have hkey := mem_keys_of_lookupRec hl
  constructor
  · simpa [keys_setRecord_of_mem hkey] using h.keysNodup
  · exact h.activeNodup
  · intro j hj
    rcases h.activeSound j hj with ⟨u, hu, hua⟩
    by_cases hje : j = id
    · subst hje
      rw [hl] at hu
      cases hu
      exact ⟨t1, lookupRec_setRecord_self _ _ _, hst.trans hua⟩
    · exact ⟨u, by
        show lookupRec (setRecord s.transfers id t1) j = some u
        rw [lookupRec_setRecord_ne _ _ _ _ hje]
        exact hu, hua⟩
  · intro j u hu hua
    by_cases hje : j = id
    · subst hje
      rw [show lookupRec (setRecord s.transfers j t1) j = some t1 from
        lookupRec_setRecord_self _ _ _] at hu
      cases hu
      exact h.activeComplete j t hl (hst ▸ hua)
    · rw [lookupRec_setRecord_ne _ _ _ _ hje] at hu
      exact h.activeComplete j u hu hua
  · intro j hj
    rw [keys_setRecord_of_mem hkey] at hj
    exact h.freshKeys j hj
  · exact h.pendingNodup
  · intro pe hpe u hu
    by_cases hje : pe.id = id
    · rw [hje] at hu
      rw [show lookupRec (setRecord s.transfers id t1) id = some t1 from
        lookupRec_setRecord_self _ _ _] at hu
      cases hu
      rw [hst]
      exact h.pendingStatus pe hpe t (by rw [hje]; exact hl)
    · rw [lookupRec_setRecord_ne _ _ _ _ hje] at hu
      exact h.pendingStatus pe hpe u hu
  · exact h.pendingLt

/-- Marking a record non-active and removing its id from the active set
preserves the invariant, provided any remaining pending execution with the
same id tolerates the new status. -/
theorem retire_record_inv {s : MState} {id : Nat} {t1 : Transfer}
    (h : Inv s) (hkey : id ∈ s.transfers.map Prod.fst)
    (hterm : t1.status ≠ Status.active)
    (hpend : ∀ pe, pe ∈ s.pending → pe.id = id →
      t1.status = Status.active ∨ t1.status = Status.cancelled) :
    Inv { s with transfers := setRecord s.transfers id t1,
                 activeTransfers := setDelete s.activeTransfers id } := by
  constructor
  · simpa [keys_setRecord_of_mem hkey] using h.keysNodup
  · exact setDelete_nodup h.activeNodup
  · intro j hj
    rcases mem_setDelete.mp hj with ⟨hj1, hje⟩
    rcases h.activeSound j hj1 with ⟨u, hu, hua⟩
    exact ⟨u, by
      show lookupRec (setRecord s.transfers id t1) j = some u
      rw [lookupRec_setRecord_ne _ _ _ _ hje]
      exact hu, hua⟩
  · intro j u hu hua
    by_cases hje : j = id
    · subst hje
      rw [show lookupRec (setRecord s.transfers j t1) j = some t1 from
        lookupRec_setRecord_self _ _ _] at hu
      cases hu
      exact absurd hua hterm
    · rw [lookupRec_setRecord_ne _ _ _ _ hje] at hu
      exact mem_setDelete.mpr ⟨h.activeComplete j u hu hua, hje⟩
  · intro j hj
    rw [keys_setRecord_of_mem hkey] at hj
    exact h.freshKeys j hj
  · exact h.pendingNodup
  · intro pe hpe u hu
    by_cases hje : pe.id = id
    · rw [hje] at hu
      rw [show lookupRec (setRecord s.transfers id t1) id = some t1 from
        lookupRec_setRecord_self _ _ _] at hu
      cases hu
      exact hpend pe hpe hje
    · rw [lookupRec_setRecord_ne _ _ _ _ hje] at hu
      exact h.pendingStatus pe hpe u hu
  · exact h.pendingLt

/-- The resumption of a settled rsync preserves the invariant, provided no
pending execution refers to the settled id any more (the step function
removes it before calling finishTransfer). -/
theorem finishTransfer_inv {s : MState} {id : Nat} {res : Option String} {src dst : Server}
    (h : Inv s) (hnp : ∀ pe, pe ∈ s.pending → pe.id ≠ id) :
    Inv (finishTransfer s id res src dst) := by
  apply processQueue_inv
  simp only [finishTransfer, findTransfer]
  split
  · rename_i hnone
    constructor
    · exact h.keysNodup
    · exact setDelete_nodup h.activeNodup
    · intro j hj
      rcases mem_setDelete.mp hj with ⟨hj1, _⟩
      exact h.activeSound j hj1
    · intro j u hu hua
      have hj := h.activeComplete j u hu hua
      refine mem_setDelete.mpr ⟨hj, ?_⟩
      intro hje
      rw [hje, hnone] at hu
      cases hu
    · exact h.freshKeys
    · exact h.pendingNodup
    · exact h.pendingStatus
    · exact h.pendingLt
  · rename_i t hl
    exact retire_record_inv h (mem_keys_of_lookupRec hl)
      (by cases res <;> simp) (fun pe hpe hje => absurd hje (hnp pe hpe))

/-- Removing the first pending execution with a given id preserves the
invariant, and afterwards no pending execution carries that id. -/
theorem pending_removed_inv {s : MState} (id : Nat) (h : Inv s) :
    Inv { s with pending := removeFirstPending s.pending id } ∧
    ∀ pe, pe ∈ removeFirstPending s.pending id → pe.id ≠ id := by
  have hsub := removeFirstPending_sublist s.pending id
  have hnm := @not_mem_removeFirstPending_ids s.pending id h.pendingNodup
  constructor
  · constructor
    · exact h.keysNodup
    · exact h.activeNodup
    · exact h.activeSound
    · exact h.activeComplete
    · exact h.freshKeys
    · exact (hsub.map PendingExec.id).nodup h.pendingNodup
    · intro pe hpe u hu
      exact h.pendingStatus pe (hsub.mem hpe) u hu
    · intro pe hpe
      exact h.pendingLt pe (hsub.mem hpe)
  · intro pe hpe he
    exact hnm (List.mem_map.mpr ⟨pe, hpe, he⟩)

/-- cancelTransfer preserves the invariant in every successful branch. -/
theorem cancelTransfer_inv {s : MState} {id : Nat} {b : Bool} {s' : MState}
    (h : Inv s) (hc : cancelTransfer s id = Except.ok (b, s')) : Inv s' := by
  simp only [cancelTransfer, findTransfer] at hc
  split at hc
  · cases hc
  · rename_i t hl
    have hkey := mem_keys_of_lookupRec hl
    split at hc
    · rename_i hq
      cases hc
      constructor
      · simpa [keys_setRecord_of_mem hkey] using h.keysNodup
      · exact h.activeNodup
      · intro j hj
        rcases h.activeSound j hj with ⟨u, hu, hua⟩
        have hje : j ≠ id := by
          intro hje
          rw [hje, hl] at hu
          cases hu
          rw [hq] at hua
          cases hua
        exact ⟨u, by
          show lookupRec (setRecord s.transfers id _) j = some u
          rw [lookupRec_setRecord_ne _ _ _ _ hje]
          exact hu, hua⟩
      · intro j u hu hua
        by_cases hje : j = id
        · subst hje
          rw [show lookupRec (setRecord s.transfers j _) j = some _ from
            lookupRec_setRecord_self _ _ _] at hu
          cases hu
          cases hua
        · rw [lookupRec_setRecord_ne _ _ _ _ hje] at hu
          exact h.activeComplete j u hu hua
      · intro j hj
        rw [keys_setRecord_of_mem hkey] at hj
        exact h.freshKeys j hj
      · exact h.pendingNodup
      · intro pe hpe u hu
        by_cases hje : pe.id = id
        · rw [hje] at hu
          rw [show lookupRec (setRecord s.transfers id _) id = some _ from
            lookupRec_setRecord_self _ _ _] at hu
          cases hu
          exact Or.inr rfl
        · rw [lookupRec_setRecord_ne _ _ _ _ hje] at hu
          exact h.pendingStatus pe hpe u hu
      · exact h.pendingLt
    · split at hc
      · rename_i hq ha
        cases hc
        exact retire_record_inv h hkey (by simp) (fun _ _ _ => Or.inr rfl)
      · cases hc
        exact h

/-- An active record is never deleted by the retention sweep. -/
theorem shouldClear_active_false (now maxAge : Nat) {t : Transfer}
    (h : t.status = Status.active) : shouldClear now maxAge t = false := by
  simp [shouldClear, h]

/-- clearOldTransfers preserves the invariant: it only deletes records in
a terminal status, so every active record survives. -/
theorem clearOldTransfers_inv {s : MState} (maxAge : Nat) (h : Inv s) :
    Inv (clearOldTransfers s maxAge) := by
  have hsubkeys : ((s.transfers.filter
      (fun kt => !shouldClear s.clock maxAge kt.2)).map Prod.fst).Sublist
      (s.transfers.map Prod.fst) :=
    (List.filter_sublist s.transfers).map Prod.fst
  constructor
  · exact keys_filter_nodup h.keysNodup
  · exact h.activeNodup
  · intro j hj
    rcases h.activeSound j hj with ⟨u, hu, hua⟩
    refine ⟨u, ?_, hua⟩
    show lookupRec (s.transfers.filter _) j = some u
    exact lookupRec_filter_of_mem h.keysNodup hu
      (by simp [shouldClear_active_false s.clock maxAge hua])
  · intro j u hu hua
    have : lookupRec s.transfers j = some u := lookupRec_filter_some h.keysNodup hu
    exact h.activeComplete j u this hua
  · intro j hj
    exact h.freshKeys j (hsubkeys.mem hj)
  · exact h.pendingNodup
  · intro pe hpe u hu
    have : lookupRec s.transfers pe.id = some u := lookupRec_filter_some h.keysNodup hu
    exact h.pendingStatus pe hpe u this
  · exact h.pendingLt

/-- The invariant ignores the clock. -/
theorem inv_clock {s : MState} (h : Inv s) (c : Nat) : Inv { s with clock := c } :=
  ⟨h.keysNodup, h.activeNodup, h.activeSound, h.activeComplete, h.freshKeys,
   h.pendingNodup, h.pendingStatus, h.pendingLt⟩

/-- The invariant ignores the concurrency bound. -/
theorem inv_max {s : MState} (h : Inv s) (n : Nat) : Inv { s with maxConcurrent := n } :=
  ⟨h.keysNodup, h.activeNodup, h.activeSound, h.activeComplete, h.freshKeys,
   h.pendingNodup, h.pendingStatus, h.pendingLt⟩

/-- Every event preserves the invariant. -/
theorem inv_step {s : MState} (e : Event) (h : Inv s) : Inv (step s e) := by
  have hc : Inv { s with clock := s.clock + 1 } := inv_clock h _
  cases e with
  | submit src dst files =>
    exact processQueue_inv src dst (createLoop_inv files _ src dst hc)
  | finish id res =>
    simp only [step]
    split
    · exact hc
    · rcases pending_removed_inv id hc with ⟨h1, h2⟩
      exact finishTransfer_inv h1 h2
  | progress id p =>
    simp only [step]
    split
    · exact hc
    · simp only [applyProgress, findTransfer]
      split
      · exact hc
      · rename_i t hl
        exact replace_same_status_inv hc hl rfl
  | cancel id =>
    simp only [step]
    split
    · rename_i r hr
      exact cancelTransfer_inv hc hr
    · exact hc
  | setMax n =>
    exact inv_max hc n
  | clearOld maxAge =>
    exact clearOldTransfers_inv maxAge hc

/-- The invariant holds in the constructor state. -/
theorem inv_init : Inv init := by
  refine ⟨?_, ?_, ?_, ?_, ?_, ?_, ?_, ?_⟩ <;> simp [init, lookupRec]

/-- The invariant holds in every reachable state. -/
theorem inv_run_aux : ∀ (es : List Event) (s : MState), Inv s → Inv (run s es) := by
  intro es
  induction es with
  | nil => intro s h; exact h
  | cons e rest ih =>
    intro s h
    exact ih _ (inv_step e h)

/-- The invariant holds after any event sequence from the initial state. -/
theorem inv_run (es : List Event) : Inv (run init es) :=
  inv_run_aux es init inv_init

/-! ## The active-count bound -/

/-- Under the invariant, the number of records with status active is at
most the size of the active set. -/
theorem countActive_le_active {s : MState} (h : Inv s) :
    countActive s ≤ s.activeTransfers.length := by
  have hnd : ((s.transfers.filter
      (fun kt => decide (kt.2.status = Status.active))).map Prod.fst).Nodup :=
    keys_filter_nodup h.keysNodup
  have hsub : (s.transfers.filter
      (fun kt => decide (kt.2.status = Status.active))).map Prod.fst ⊆
      s.activeTransfers := by
    intro j hj
    rcases List.mem_map.mp hj with ⟨p, hp, he⟩
    have hp2 := List.mem_filter.mp hp
    have hm : (p.1, p.2) ∈ s.transfers := by
      cases p
      exact hp2.1
    have hlp : lookupRec s.transfers p.1 = some p.2 :=
      lookupRec_of_mem_nodup h.keysNodup hm
    have hst : p.2.status = Status.active := by simpa using hp2.2
    exact he ▸ h.activeComplete p.1 p.2 hlp hst
  have := (hnd.subperm hsub).length_le
  simpa [countActive, countStatus] using this

/-- Under the invariant, the size of the active set is at most the number
of records with status active. -/
theorem active_le_countActive {s : MState} (h : Inv s) :
    s.activeTransfers.length ≤ countActive s := by
  have hsub : s.activeTransfers ⊆ (s.transfers.filter
      (fun kt => decide (kt.2.status = Status.active))).map Prod.fst := by
    intro j hj
    rcases h.activeSound j hj with ⟨u, hu, hua⟩
    have hm : (j, u) ∈ s.transfers := lookupRec_mem hu
    have hf : (j, u) ∈ s.transfers.filter
        (fun kt => decide (kt.2.status = Status.active)) :=
      List.mem_filter.mpr ⟨hm, by simpa using hua⟩
    exact List.mem_map.mpr ⟨(j, u), hf, rfl⟩
  have := (h.activeNodup.subperm hsub).length_le
  simpa [countActive, countStatus] using this

/-- The creation loop touches neither the active set nor the bound. -/
theorem createLoop_active (files : List FileEntry) :
    ∀ (s : MState) (src dst : Server),
      (createLoop s src dst files).2.activeTransfers = s.activeTransfers ∧
      (createLoop s src dst files).2.maxConcurrent = s.maxConcurrent := by
  induction files with
  | nil => intro s src dst; exact ⟨rfl, rfl⟩
  | cons f rest ih =>
    intro s src dst
    simp only [createLoop]
    exact ih _ src dst

/-- The settling of an rsync preserves the active-count bound. -/
theorem finishTransfer_bound {s : MState} {id : Nat} {res : Option String}
    {src dst : Server} (hb : BoundOk s) :
    BoundOk (finishTransfer s id res src dst) := by
  apply processQueue_bound
  simp only [finishTransfer, findTransfer]
  split
  · show (setDelete s.activeTransfers id).length ≤ s.maxConcurrent
    have := length_setDelete_le s.activeTransfers id
    exact le_trans this hb
  · show (setDelete s.activeTransfers id).length ≤ s.maxConcurrent
    have := length_setDelete_le s.activeTransfers id
    exact le_trans this hb

/-- Cancellation preserves the active-count bound. -/
theorem cancelTransfer_bound {s : MState} {id : Nat} {b : Bool} {s' : MState}
    (hb : BoundOk s) (hc : cancelTransfer s id = Except.ok (b, s')) : BoundOk s' := by
  simp only [cancelTransfer, findTransfer] at hc
  split at hc
  · cases hc
  · split at hc
    · cases hc
      exact hb
    · split at hc
      · cases hc
        show (setDelete s.activeTransfers id).length ≤ s.maxConcurrent
        exact le_trans (length_setDelete_le s.activeTransfers id) hb
      · cases hc
        exact hb

/-- An event is within contract when it does not lower the concurrency
bound below the current number of active records; every event other than
setMaxConcurrent is always within contract. -/
def goodEvent (s : MState) : Event → Bool
  | .setMax n => decide (countActive s ≤ n)
  | _ => true

/-- An event sequence is within contract when each event is, in the state
it executes in. -/
def GoodTrace : MState → List Event → Bool
  | _, [] => true
  | s, e :: es => goodEvent s e && GoodTrace (step s e) es

/-- Every within-contract event preserves the active-count bound. -/
theorem bound_step {s : MState} (e : Event) (h : Inv s) (hb : BoundOk s)
    (hg : goodEvent s e = true) : BoundOk (step s e) := by
  cases e with
  | submit src dst files =>
    show BoundOk (createTransfers _ src dst files).2
    apply processQueue_bound
    show BoundOk (createLoop _ src dst files).2
    rcases createLoop_active files { s with clock := s.clock + 1 } src dst with ⟨h1, h2⟩
    show (createLoop _ src dst files).2.activeTransfers.length ≤
      (createLoop _ src dst files).2.maxConcurrent
    rw [h1, h2]
    exact hb
  | finish id res =>
    simp only [step]
    split
    · exact hb
    · exact finishTransfer_bound hb
  | progress id p =>
    simp only [step]
    split
    · exact hb
    · simp only [applyProgress, findTransfer]
      split
      · exact hb
      · exact hb
  | cancel id =>
    simp only [step]
    split
    · rename_i r hr
      exact @cancelTransfer_bound { s with clock := s.clock + 1 } id r.1 r.2 hb hr
    · exact hb
  | setMax n =>
    show s.activeTransfers.length ≤ n
    have h1 : countActive { s with clock := s.clock + 1 } ≤ n := by
      simpa [goodEvent] using hg
    exact le_trans (active_le_countActive (inv_clock h _)) h1
  | clearOld maxAge =>
    exact hb

/-- Along a within-contract trace both the invariant and the bound hold. -/
theorem good_run : ∀ (es : List Event) (s : MState), Inv s → BoundOk s →
    GoodTrace s es = true → Inv (run s es) ∧ BoundOk (run s es) := by
  intro es
  induction es with
  | nil => intro s h hb _; exact ⟨h, hb⟩
  | cons e rest ih =>
    intro s h hb hg
    simp only [GoodTrace, Bool.and_eq_true] at hg
    exact ih _ (inv_step e h) (bound_step e h hb hg.1) hg.2

/-! ## Status transitions of the state machine -/

/-- The status transitions a single event can cause on one record, as the
code implements them: stay put; queued to active or cancelled; active to
completed, failed or cancelled; and cancelled to completed or failed (the
overwrite performed by the rsync resumption of a transfer that was
cancelled while active). -/
def allowedTransition (a b : Status) : Bool :=
  decide (a = b)
  || (decide (a = Status.queued) && (decide (b = Status.active) || decide (b = Status.cancelled)))
  || (decide (a = Status.active)
      && (decide (b = Status.completed) || decide (b = Status.failed)
          || decide (b = Status.cancelled)))
  || (decide (a = Status.cancelled) && (decide (b = Status.completed) || decide (b = Status.failed)))

theorem allowed_of_eq {a b : Status} (h : a = b) : allowedTransition a b = true := by
  simp [allowedTransition, h]

theorem allowed_queued_active {a b : Status} (h1 : a = Status.queued)
    (h2 : b = Status.active) : allowedTransition a b = true := by
  simp [allowedTransition, h1, h2]

theorem allowed_finish {a b : Status} (h1 : a = Status.active ∨ a = Status.cancelled)
    (h2 : b = Status.completed ∨ b = Status.failed) : allowedTransition a b = true := by
  rcases h1 with h1 | h1 <;> rcases h2 with h2 | h2 <;> simp [allowedTransition, h1, h2]

theorem allowed_cancel {a : Status} (h1 : a = Status.queued ∨ a = Status.active) :
    allowedTransition a Status.cancelled = true := by
  rcases h1 with h1 | h1 <;> simp [allowedTransition, h1]

/-- An admission pass only performs allowed transitions on any record. -/
theorem processQueue_allowed {s : MState} {id : Nat} {t t' : Transfer} (src dst : Server)
    (h : lookupRec s.transfers id = some t)
    (h2 : lookupRec (processQueue s src dst).transfers id = some t') :
    allowedTransition t.status t'.status = true := by
  rcases processQueueAux_lookup s.queue.length src dst s id t h with ⟨u, hu, hc⟩
  have htu : t' = u := Option.some.inj (h2.symm.trans hu)
  subst htu
  rcases hc with hc | hc
  · exact allowed_of_eq (by rw [hc])
  · exact allowed_queued_active hc.1 hc.2

/-- Core of the rsync-resumption transition argument: overwriting the
settled record with a terminal (completed or failed) version and running
an admission pass performs only allowed transitions, provided the settled
record was active or cancelled. -/
theorem finish_core {s : MState} {fid id : Nat} {src dst : Server} {t t' t1 : Transfer}
    (h1 : lookupRec s.transfers id = some t)
    (ht1 : t1.status = Status.completed ∨ t1.status = Status.failed)
    (h2 : lookupRec (processQueue
        { s with transfers := setRecord s.transfers fid t1,
                 activeTransfers := setDelete s.activeTransfers fid } src dst).transfers id
        = some t')
    (hp : id = fid → t.status = Status.active ∨ t.status = Status.cancelled) :
    allowedTransition t.status t'.status = true := by
  by_cases hid : id = fid
  · subst hid
    rcases processQueueAux_lookup _ src dst
        { s with transfers := setRecord s.transfers id t1,
                 activeTransfers := setDelete s.activeTransfers id } id t1
        (lookupRec_setRecord_self s.transfers id t1) with ⟨v, hv, hc⟩
    have htv : t' = v := Option.some.inj (h2.symm.trans hv)
    subst htv
    rcases hc with hc | hc
    · refine allowed_finish (hp rfl) ?_
      rw [hc]
      exact ht1
    · rcases ht1 with h3 | h3 <;> rw [h3] at hc <;> cases hc.1
  · have hmid : lookupRec (setRecord s.transfers fid t1) id = some t := by
      rw [lookupRec_setRecord_ne _ _ _ _ hid]
      exact h1
    refine processQueue_allowed src dst ?_ h2
    exact hmid

/-- The rsync resumption performs only allowed transitions, provided the
settled record was active or cancelled when the resumption ran. -/
theorem finishTransfer_lookup {s : MState} {fid id : Nat} {res : Option String}
    {src dst : Server} {t t' : Transfer}
    (h1 : lookupRec s.transfers id = some t)
    (h2 : lookupRec (finishTransfer s fid res src dst).transfers id = some t')
    (hp : id = fid → t.status = Status.active ∨ t.status = Status.cancelled) :
    allowedTransition t.status t'.status = true := by
  simp only [finishTransfer, findTransfer] at h2
  cases hlf : lookupRec s.transfers fid with
  | none =>
    simp only [hlf] at h2
    refine processQueue_allowed src dst ?_ h2
    exact h1
  | some u =>
    simp only [hlf] at h2
    cases res with
    | none => exact finish_core h1 (Or.inl rfl) h2 hp
    | some msg => exact finish_core h1 (Or.inr rfl) h2 hp

/-- A record that does not change performs an allowed transition. -/
theorem allowed_of_some_eq {t t' : Transfer} (h : (some t : Option Transfer) = some t') :
    allowedTransition t.status t'.status = true :=
  allowed_of_eq (by rw [Option.some.inj h])

/-- The progress callback performs only allowed transitions: it never
changes a status. -/
theorem applyProgress_lookup {s : MState} {pid : Nat} {p : Progress} {id : Nat}
    {t t' : Transfer}
    (h1 : lookupRec s.transfers id = some t)
    (h2 : lookupRec (applyProgress s pid p).transfers id = some t') :
    allowedTransition t.status t'.status = true := by
  simp only [applyProgress, findTransfer] at h2
  cases hlf : lookupRec s.transfers pid with
  | none =>
    simp only [hlf] at h2
    exact allowed_of_some_eq (h1.symm.trans h2)
  | some u =>
    simp only [hlf] at h2
    by_cases hid : id = pid
    · subst hid
      rw [lookupRec_setRecord_self] at h2
      have he := Option.some.inj h2
      have hut : u = t := Option.some.inj (hlf.symm.trans h1)
      refine allowed_of_eq ?_
      rw [← he, ← hut]
    · rw [lookupRec_setRecord_ne _ _ _ _ hid] at h2
      exact allowed_of_some_eq (h1.symm.trans h2)

/-- Cancellation performs only allowed transitions. -/
theorem cancelTransfer_lookup {s : MState} {cid : Nat} {b : Bool} {s' : MState}
    (hc : cancelTransfer s cid = Except.ok (b, s')) {id : Nat} {t t' : Transfer}
    (h1 : lookupRec s.transfers id = some t)
    (h2 : lookupRec s'.transfers id = some t') :
    allowedTransition t.status t'.status = true := by
  simp only [cancelTransfer, findTransfer] at hc
  split at hc
  · cases hc
  · rename_i u hlf
    split at hc
    · rename_i hq
      cases hc
      by_cases hid : id = cid
      · subst hid
        rw [lookupRec_setRecord_self] at h2
        have he := Option.some.inj h2
        have hut : u = t := Option.some.inj (hlf.symm.trans h1)
        rw [← he]
        exact allowed_cancel (Or.inl (hut ▸ hq))
      · rw [lookupRec_setRecord_ne _ _ _ _ hid] at h2
        exact allowed_of_some_eq (h1.symm.trans h2)
    · split at hc
      · rename_i hq ha
        cases hc
        by_cases hid : id = cid
        · subst hid
          rw [lookupRec_setRecord_self] at h2
          have he := Option.some.inj h2
          have hut : u = t := Option.some.inj (hlf.symm.trans h1)
          rw [← he]
          exact allowed_cancel (Or.inr (hut ▸ ha))
        · rw [lookupRec_setRecord_ne _ _ _ _ hid] at h2
          exact allowed_of_some_eq (h1.symm.trans h2)
      · cases hc
        exact allowed_of_some_eq (h1.symm.trans h2)

/-- Any single event performs only allowed status transitions on any
record, in any state satisfying the invariant. -/
theorem step_allowed {s : MState} (h : Inv s) (e : Event) (id : Nat) (t t' : Transfer)
    (h1 : findTransfer s id = some t) (h2 : findTransfer (step s e) id = some t') :
    allowedTransition t.status t'.status = true := by
  have h1' : lookupRec s.transfers id = some t := h1
  cases e with
  | submit src dst files =>
    have hlt : id < s.nextId := h.freshKeys id (mem_keys_of_lookupRec h1')
    have hmid : lookupRec (createLoop { s with clock := s.clock + 1 }
        src dst files).2.transfers id = some t :=
      createLoop_preserves files _ src dst id t hlt h1'
    exact processQueue_allowed src dst hmid h2
  | finish fid res =>
    simp only [step] at h2
    split at h2
    · exact allowed_of_some_eq (h1'.symm.trans h2)
    · rename_i pe hfind
      have hpe : pe ∈ s.pending := List.mem_of_find?_eq_some hfind
      have hpid : pe.id = fid := by
        have := List.find?_some hfind
        simpa using this
      refine finishTransfer_lookup ?_ h2 ?_
      · exact h1'
      · intro hid
        refine h.pendingStatus pe hpe t ?_
        rw [hpid, ← hid]
        exact h1'
  | progress pid p =>
    simp only [step] at h2
    split at h2
    · exact allowed_of_some_eq (h1'.symm.trans h2)
    · refine applyProgress_lookup ?_ h2
      exact h1'
  | cancel cid =>
    simp only [step] at h2
    split at h2
    · rename_i r hr
      refine cancelTransfer_lookup hr ?_ h2
      exact h1'
    · exact allowed_of_some_eq (h1'.symm.trans h2)
  | setMax n =>
    exact allowed_of_some_eq (h1'.symm.trans h2)
  | clearOld maxAge =>
    have h2' : lookupRec s.transfers id = some t' :=
      lookupRec_filter_some h.keysNodup h2
    exact allowed_of_some_eq (h1'.symm.trans h2')

/-! ## No operation assigns the skipped status -/

/-- No record in the table carries the status skipped. -/
def NoSkipped (s : MState) : Prop :=
  ∀ p, p ∈ s.transfers → p.2.status ≠ Status.skipped

theorem noSkipped_setRecord {l : List (Nat × Transfer)} {id : Nat} {t1 : Transfer}
    (h : ∀ p, p ∈ l → p.2.status ≠ Status.skipped) (h1 : t1.status ≠ Status.skipped) :
    ∀ p, p ∈ setRecord l id t1 → p.2.status ≠ Status.skipped := by
  intro p hp
  rcases mem_setRecord hp with h2 | h2
  · rw [h2]
    exact h1
  · exact h p h2

theorem noSkipped_startTransferSync {s : MState} {id : Nat} {src dst : Server}
    (h : NoSkipped s) : NoSkipped (startTransferSync s id src dst) := by
  simp only [startTransferSync, findTransfer]
  split
  · exact h
  · rename_i t hlk
    exact noSkipped_setRecord h (by simp)

theorem noSkipped_processQueueAux (fuel : Nat) (src dst : Server) :
    ∀ s : MState, NoSkipped s → NoSkipped (processQueueAux fuel s src dst) := by
  induction fuel with
  | zero => intro s h; exact h
  | succ fuel ih =>
    intro s h
    simp only [processQueueAux]
    split
    · exact h
    · rename_i id rest _hq
      split
      · split
        · exact ih _ h
        · split
          · exact ih _ (noSkipped_startTransferSync h)
          · exact ih _ h
      · exact h

theorem noSkipped_createLoop (files : List FileEntry) :
    ∀ (s : MState) (src dst : Server), NoSkipped s → NoSkipped (createLoop s src dst files).2 := by
  induction files with
  | nil => intro s src dst h; exact h
  | cons f rest ih =>
    intro s src dst h
    simp only [createLoop]
    exact ih _ src dst (noSkipped_setRecord h (by simp))

theorem noSkipped_finishTransfer {s : MState} {id : Nat} {res : Option String}
    {src dst : Server} (h : NoSkipped s) : NoSkipped (finishTransfer s id res src dst) := by
  apply noSkipped_processQueueAux
  simp only [finishTransfer, findTransfer]
  split
  · exact h
  · rename_i t hlk
    refine noSkipped_setRecord h ?_
    cases res <;> simp

theorem noSkipped_applyProgress {s : MState} {id : Nat} {p : Progress}
    (h : NoSkipped s) : NoSkipped (applyProgress s id p) := by
  simp only [applyProgress, findTransfer]
  split
  · exact h
  · rename_i t hlk
    refine noSkipped_setRecord h ?_
    show t.status ≠ Status.skipped
    exact h (id, t) (lookupRec_mem hlk)

theorem noSkipped_cancelTransfer {s : MState} {id : Nat} {b : Bool} {s' : MState}
    (h : NoSkipped s) (hc : cancelTransfer s id = Except.ok (b, s')) : NoSkipped s' := by
  simp only [cancelTransfer, findTransfer] at hc
  split at hc
  · cases hc
  · split at hc
    · cases hc
      exact noSkipped_setRecord h (by simp)
    · split at hc
      · cases hc
        exact noSkipped_setRecord h (by simp)
      · cases hc
        exact h

theorem noSkipped_step {s : MState} (e : Event) (h : NoSkipped s) : NoSkipped (step s e) := by
  have hc : NoSkipped { s with clock := s.clock + 1 } := h
  cases e with
  | submit src dst files =>
    exact noSkipped_processQueueAux _ src dst _ (noSkipped_createLoop files _ src dst hc)
  | finish id res =>
    simp only [step]
    split
    · exact hc
    · exact noSkipped_finishTransfer hc
  | progress id p =>
    simp only [step]
    split
    · exact hc
    · exact noSkipped_applyProgress hc
  | cancel id =>
    simp only [step]
    split
    · rename_i r hr
      exact noSkipped_cancelTransfer hc hr
    · exact hc
  | setMax n =>
    exact hc
  | clearOld maxAge =>
    intro p hp
    exact hc p ((List.filter_sublist _).mem hp)

theorem noSkipped_run : ∀ (es : List Event) (s : MState), NoSkipped s → NoSkipped (run s es) := by
  intro es
  induction es with
  | nil => intro s h; exact h
  | cons e rest ih =>
    intro s h
    exact ih _ (noSkipped_step e h)

/-! ## The HTTP submission handler (routes/transfers.js, POST handler) -/

/-- The loaded configuration: the list of configured servers. -/
structure Config where
  servers : List Server
deriving DecidableEq, Repr

/-- config.servers.find on a server id. -/
def findServer (cfg : Config) (sid : String) : Option Server :=
  cfg.servers.find? (fun sv => decide (sv.id = sid))

/-- The response of the POST /api/transfers handler: a 400 validation
error, a 404 lookup error, or the created ids. -/
inductive ApiResult where
  | badRequest (msg : String)
  | notFound (msg : String)
  | created (ids : List Nat)
deriving DecidableEq, Repr

/-- Whether a response reports created transfers. -/
def isCreated : ApiResult → Bool
  | .created _ => true
  | _ => false

/-- The POST /api/transfers handler (routes/transfers.js lines 14 to 77):
reject missing or falsy fields with 400, an empty file list with 400, an
unknown source or destination host with 404, identical hosts with 400;
otherwise create the transfers.  The manager state is returned alongside
the response. -/
def postTransfers (cfg : Config) (s : MState) (sourceServerId destServerId : Option String)
    (files : Option (List FileEntry)) : ApiResult × MState :=
  match sourceServerId, destServerId, files with
  | some a, some b, some fl =>
    if a = "" ∨ b = "" then
      (ApiResult.badRequest "Missing required fields: sourceServerId, destServerId, files", s)
    else if fl.length = 0 then
      (ApiResult.badRequest "No files specified for transfer", s)
    else
      match findServer cfg a with
      | none => (ApiResult.notFound ("Source server not found: " ++ a), s)
      | some srcServer =>
        match findServer cfg b with
        | none => (ApiResult.notFound ("Destination server not found: " ++ b), s)
        | some dstServer =>
          if a = b then
            (ApiResult.badRequest "Source and destination servers must be different", s)
          else
            let r := createTransfers s srcServer dstServer fl
            (ApiResult.created r.1, r.2)
  | _, _, _ =>
    (ApiResult.badRequest "Missing required fields: sourceServerId, destServerId, files", s)

/-! ## Records cancelled while queued are never changed again

A record cancelled in the queued state has no in-flight rsync execution
(admission is the only source of pending executions and requires status
queued at admission time), and no operation ever touches a cancelled
record that has no in-flight execution: admission skips it, finish and
progress events are gated on a pending execution, cancel falls through to
the already-terminal branch, and the sweep can only delete it.  The
Frozen predicate captures this and is preserved by every event. -/

/-- The record with the given id is frozen at the value tc: any lookup
yields exactly tc, no in-flight execution refers to the id, and the id is
below the fresh-id counter (so no later creation can reuse it). -/
structure Frozen (s : MState) (id : Nat) (tc : Transfer) : Prop where
  look : ∀ u, lookupRec s.transfers id = some u → u = tc
  nopend : ∀ pe, pe ∈ s.pending → pe.id ≠ id
  lt : id < s.nextId

/-- Frozen transports along a state whose transfers and pending lists are
unchanged and whose fresh-id counter has not decreased. -/
theorem frozen_of_eq {s s' : MState} {id : Nat} {tc : Transfer} (hf : Frozen s id tc)
    (ht : s'.transfers = s.transfers) (hp : s'.pending = s.pending)
    (hn : s.nextId ≤ s'.nextId) : Frozen s' id tc := by
  constructor
  · intro v hv
    rw [ht] at hv
    exact hf.look v hv
  · intro pe hpe
    rw [hp] at hpe
    exact hf.nopend pe hpe
  · exact lt_of_lt_of_le hf.lt hn

/-- Frozen is preserved by replacing a record with a different key. -/
theorem frozen_setRecord_ne {s : MState} {id cid : Nat} {tc t1 : Transfer} {s' : MState}
    (hf : Frozen s id tc) (hcid : cid ≠ id)
    (ht : s'.transfers = setRecord s.transfers cid t1)
    (hp : s'.pending = s.pending) (hn : s.nextId ≤ s'.nextId) : Frozen s' id tc := by
  constructor
  · intro v hv
    rw [ht, lookupRec_setRecord_ne _ _ _ _ (fun he => hcid he.symm)] at hv
    exact hf.look v hv
  · intro pe hpe
    rw [hp] at hpe
    exact hf.nopend pe hpe
  · exact lt_of_lt_of_le hf.lt hn

/-- Launching another record preserves Frozen. -/
theorem startTransferSync_frozen {s : MState} {qid id : Nat} {src dst : Server}
    {tc : Transfer} (hqid : qid ≠ id) (hf : Frozen s id tc) :
    Frozen (startTransferSync s qid src dst) id tc := by
  simp only [startTransferSync, findTransfer]
  split
  · exact hf
  · rename_i u hlk
    constructor
    · intro v hv
      replace hv : lookupRec (setRecord s.transfers qid
          { u with status := Status.active, startedAt := some s.clock }) id = some v := hv
      rw [lookupRec_setRecord_ne _ _ _ _ (fun he => hqid he.symm)] at hv
      exact hf.look v hv
    · intro pe hpe
      replace hpe : pe ∈ s.pending ++ [({ id := qid, src := src, dst := dst } : PendingExec)] :=
        hpe
      rcases List.mem_append.mp hpe with hpe | hpe
      · exact hf.nopend pe hpe
      · have hpee : pe = { id := qid, src := src, dst := dst } := by simpa using hpe
        rw [hpee]
        exact hqid
    · exact hf.lt

/-- An admission pass preserves Frozen for any non-queued record: the
frozen record is never admitted (its status is not queued), so only other
records are started. -/
theorem processQueueAux_frozen (fuel : Nat) (src dst : Server) {id : Nat} {tc : Transfer}
    (htc : ¬ tc.status = Status.queued) :
    ∀ s : MState, Frozen s id tc → Frozen (processQueueAux fuel s src dst) id tc := by
  induction fuel with
  | zero => intro s hf; exact hf
  | succ fuel ih =>
    intro s hf
    simp only [processQueueAux]
    split
    · exact hf
    · rename_i qid rest _hq
      split
      · split
        · exact ih _ (frozen_of_eq hf rfl rfl (Nat.le_refl _))
        · rename_i u hlk
          split
          · rename_i hst
            have hqid : qid ≠ id := by
              intro he
              subst he
              have hu : u = tc := hf.look u hlk
              rw [hu] at hst
              exact htc hst
            exact ih _ (startTransferSync_frozen hqid (frozen_of_eq hf rfl rfl (Nat.le_refl _)))
          · exact ih _ (frozen_of_eq hf rfl rfl (Nat.le_refl _))
      · exact hf

/-- processQueue preserves Frozen for a non-queued record. -/
theorem processQueue_frozen {s : MState} (src dst : Server) {id : Nat} {tc : Transfer}
    (htc : ¬ tc.status = Status.queued) (hf : Frozen s id tc) :
    Frozen (processQueue s src dst) id tc :=
  processQueueAux_frozen _ src dst htc s hf

/-- The creation loop preserves Frozen: every created key is the fresh
counter, which is above the frozen id. -/
theorem createLoop_frozen (files : List FileEntry) :
    ∀ (s : MState) (src dst : Server) {id : Nat} {tc : Transfer}, Frozen s id tc →
      Frozen (createLoop s src dst files).2 id tc := by
  induction files with
  | nil => intro s src dst id tc hf; exact hf
  | cons f rest ih =>
    intro s src dst id tc hf
    simp only [createLoop]
    apply ih
    refine frozen_setRecord_ne hf ?_ rfl rfl ?_
    · intro he
      exact absurd (he ▸ hf.lt) (lt_irrefl _)
    · exact Nat.le_succ _

/-- The resumption of another record preserves Frozen. -/
theorem finishTransfer_frozen {s : MState} {fid id : Nat} {res : Option String}
    {src dst : Server} {tc : Transfer}
    (htc : ¬ tc.status = Status.queued) (hfid : fid ≠ id) (hf : Frozen s id tc) :
    Frozen (finishTransfer s fid res src dst) id tc := by
  simp only [finishTransfer, findTransfer]
  split
  · exact processQueue_frozen src dst htc (frozen_of_eq hf rfl rfl (Nat.le_refl _))
  · rename_i u hlf
    exact processQueue_frozen src dst htc
      (frozen_setRecord_ne hf hfid rfl rfl (Nat.le_refl _))

/-- A progress callback for another record preserves Frozen. -/
theorem applyProgress_frozen {s : MState} {pid id : Nat} {p : Progress} {tc : Transfer}
    (hpid : pid ≠ id) (hf : Frozen s id tc) : Frozen (applyProgress s pid p) id tc := by
  simp only [applyProgress, findTransfer]
  split
  · exact hf
  · exact frozen_setRecord_ne hf hpid rfl rfl (Nat.le_refl _)

/-- The retention sweep preserves Frozen: it can only delete the record,
never change it. -/
theorem clearOldTransfers_frozen {s : MState} (maxAge : Nat) {id : Nat} {tc : Transfer}
    (hk : (s.transfers.map Prod.fst).Nodup) (hf : Frozen s id tc) :
    Frozen (clearOldTransfers s maxAge) id tc := by
  constructor
  · intro v hv
    replace hv : lookupRec (s.transfers.filter
        (fun kt => !shouldClear s.clock maxAge kt.2)) id = some v := hv
    exact hf.look v (lookupRec_filter_some hk hv)
  · exact hf.nopend
  · exact hf.lt

/-- Every event preserves Frozen for a cancelled record without an
in-flight execution. -/
theorem frozen_step {s : MState} {id : Nat} {tc : Transfer} (e : Event)
    (hinv : Inv s) (htc : tc.status = Status.cancelled) (hf : Frozen s id tc) :
    Frozen (step s e) id tc := by
  have htcq : ¬ tc.status = Status.queued := by
    rw [htc]
    simp
  have hfc : Frozen { s with clock := s.clock + 1 } id tc :=
    frozen_of_eq hf rfl rfl (Nat.le_refl _)
  cases e with
  | submit src dst files =>
    exact processQueue_frozen src dst htcq (createLoop_frozen files _ src dst hfc)
  | finish fid res =>
    simp only [step]
    split
    · exact hfc
    · rename_i pe hfind
      have hpe : pe ∈ s.pending := List.mem_of_find?_eq_some hfind
      have hpid : pe.id = fid := by simpa using List.find?_some hfind
      have hfid : fid ≠ id := by
        intro he
        exact hf.nopend pe hpe (hpid.trans he)
      refine finishTransfer_frozen htcq hfid ?_
      constructor
      · exact hfc.look
      · intro pe2 hpe2
        replace hpe2 : pe2 ∈ removeFirstPending s.pending fid := hpe2
        exact hf.nopend pe2 ((removeFirstPending_sublist s.pending fid).mem hpe2)
      · exact hf.lt
  | progress pid p =>
    simp only [step]
    split
    · exact hfc
    · rename_i pe hfind
      have hpe : pe ∈ s.pending := List.mem_of_find?_eq_some hfind
      have hpid : pe.id = pid := by simpa using List.find?_some hfind
      have hpidne : pid ≠ id := by
        intro he
        exact hf.nopend pe hpe (hpid.trans he)
      exact applyProgress_frozen hpidne hfc
  | cancel cid =>
    simp only [step]
    split
    · rename_i r hr
      simp only [cancelTransfer, findTransfer] at hr
      split at hr
      · cases hr
      · rename_i u hlf
        split at hr
        · rename_i hq
          cases hr
          by_cases hcid : cid = id
          · subst hcid
            have hu : u = tc := hf.look u hlf
            rw [hu] at hq
            exact absurd hq htcq
          · exact frozen_setRecord_ne hfc hcid rfl rfl (Nat.le_refl _)
        · split at hr
          · rename_i hq ha
            cases hr
            by_cases hcid : cid = id
            · subst hcid
              have hu : u = tc := hf.look u hlf
              rw [hu, htc] at ha
              simp at ha
            · exact frozen_setRecord_ne hfc hcid rfl rfl (Nat.le_refl _)
          · cases hr
            exact hfc
    · exact hfc
  | setMax n =>
    exact frozen_of_eq hfc rfl rfl (Nat.le_refl _)
  | clearOld maxAge =>
    exact clearOldTransfers_frozen maxAge hinv.keysNodup hfc

/-- Frozen persists along any event sequence. -/
theorem frozen_run : ∀ (more : List Event) (s : MState) {id : Nat} {tc : Transfer},
    Inv s → tc.status = Status.cancelled → Frozen s id tc →
    Frozen (run s more) id tc := by
  intro more
  induction more with
  | nil => intro s id tc _ _ hf; exact hf
  | cons e rest ih =>
    intro s id tc hinv htc hf
    exact ih _ (inv_step e hinv) htc (frozen_step e hinv htc hf)

/-- Cancelling a queued record freezes it at its cancelled value. -/
theorem cancel_queued_frozen {s : MState} {id : Nat} {t : Transfer}
    (hinv : Inv s) (h1 : lookupRec s.transfers id = some t) (hq : t.status = Status.queued) :
    ∃ tc, tc.status = Status.cancelled ∧ Frozen (step s (Event.cancel id)) id tc := by
  refine ⟨{ t with status := Status.cancelled, completedAt := some (s.clock + 1) }, rfl, ?_⟩
  have h1c : lookupRec ({ s with clock := s.clock + 1 } : MState).transfers id = some t := h1
  have hnp : ∀ pe, pe ∈ s.pending → pe.id ≠ id := not_pending_of_queued hinv h1 hq
  have hlt : id < s.nextId := hinv.freshKeys id (mem_keys_of_lookupRec h1)
  simp only [step, cancelTransfer, findTransfer, h1, h1c]
  rw [if_pos hq]
  constructor
  · intro v hv
    replace hv : lookupRec (setRecord s.transfers id
        { t with status := Status.cancelled, completedAt := some (s.clock + 1) }) id =
        some v := hv
    rw [lookupRec_setRecord_self] at hv
    exact (Option.some.inj hv).symm
  · intro pe hpe
    replace hpe : pe ∈ s.pending := hpe
    exact hnp pe hpe
  · exact hlt

/-! ## Claim theorems -/

/-- Trace of the C1 counterexample: two admissions under the default
bound, then the bound is lowered to one at runtime. -/
def ces1 : List Event := [Event.submit srvA srvB [fileE1, fileE2], Event.setMax 1]

/-- A within-contract trace exercising submission, completion, failure
admission, cancellation and a bound change. -/
def cesGood : List Event := [Event.submit srvA srvB [fileE1, fileE2, fileE3, fileE4],
  Event.finish 0 none, Event.cancel 1, Event.setMax 2]

/-- Trace of the C2 counterexample: one transfer admitted and then
cancelled while active; its rsync process is still in flight. -/
def ces2 : List Event := [Event.submit srvA srvB [fileE1], Event.cancel 0]

/-- Trace of the C4 failing input: bound one, a batch from A to B whose
transfer is admitted, a batch from C to D that has to wait, then the
first transfer settles and its retirement admits the waiting record. -/
def ces4 : List Event := [Event.setMax 1, Event.submit srvA srvB [fileE1],
  Event.submit srvC srvD [fileE2], Event.finish 0 none]

/-- Claim C1, counterexample to the claim as stated: lowering the bound at
runtime below the number of active records leaves more active records than
the bound permits (setMaxConcurrent does not preempt active transfers). -/
theorem c1_counterexample :
    (run init ces1).maxConcurrent < countActive (run init ces1) := by decide

/-- Claim C1 (amended): along every event sequence in which
setMaxConcurrent is never called with a value below the current number of
active records, the number of records with status active never exceeds
the configured concurrency bound. -/
theorem c1_active_count_bounded (es : List Event) (h : GoodTrace init es = true) :
    countActive (run init es) ≤ (run init es).maxConcurrent := by
  have hb : BoundOk init := by
    show (List.length [] : Nat) ≤ 3
    simp
  rcases good_run es init inv_init hb h with ⟨hi, hbb⟩
  exact le_trans (countActive_le_active hi) hbb

/-- Witness for C1 at a concrete within-contract trace. -/
theorem c1_active_count_bounded_witness :
    GoodTrace init cesGood = true ∧
    countActive (run init cesGood) ≤ (run init cesGood).maxConcurrent :=
  ⟨by decide, c1_active_count_bounded cesGood (by decide)⟩

/-- Claim C2, counterexample to the claim as stated: a record cancelled
while active (a terminal status) is later overwritten to completed when
its still-running rsync settles. -/
theorem c2_counterexample :
    (findTransfer (run init ces2) 0).map Transfer.status = some Status.cancelled ∧
    (findTransfer (step (run init ces2) (Event.finish 0 none)) 0).map Transfer.status =
      some Status.completed := by
  constructor <;> decide

/-- Claim C2 (amended): every event moves every record only along
queued to active, queued to cancelled, active to completed, failed or
cancelled, or cancelled to completed or failed (the overwrite of a record
cancelled while its copy was in flight); completed and failed are never
left and queued is never re-entered (first conjunct).  Moreover a record
cancelled while queued is never changed again: after cancelling a queued
record, every later sequence of operations leaves its status cancelled
(second conjunct). -/
theorem c2_transitions_allowed :
    (∀ (es : List Event) (e : Event) (id : Nat) (t t' : Transfer),
      findTransfer (run init es) id = some t →
      findTransfer (step (run init es) e) id = some t' →
      allowedTransition t.status t'.status = true) ∧
    (∀ (es more : List Event) (id : Nat) (t t' : Transfer),
      findTransfer (run init es) id = some t → t.status = Status.queued →
      findTransfer (run (step (run init es) (Event.cancel id)) more) id = some t' →
      t'.status = Status.cancelled) := by
  constructor
  · intro es e id t t' h1 h2
    exact step_allowed (inv_run es) e id t t' h1 h2
  · intro es more id t t' h1 hq h2
    have hinv := inv_run es
    rcases cancel_queued_frozen hinv h1 hq with ⟨tc, htc, hf⟩
    have hfr := frozen_run more _ (inv_step _ hinv) htc hf
    have ht' : t' = tc := hfr.look t' h2
    rw [ht']
    exact htc

/-- Witness for C2: a cancel of an active record performs an allowed
transition, and a record cancelled while queued still has status
cancelled after a later completion retires a slot. -/
theorem c2_transitions_allowed_witness :
    (∃ t t', findTransfer (run init [Event.submit srvA srvB [fileE1]]) 0 = some t ∧
      findTransfer (step (run init [Event.submit srvA srvB [fileE1]]) (Event.cancel 0)) 0 =
        some t' ∧
      allowedTransition t.status t'.status = true) ∧
    (∃ t', findTransfer (run (step (run init
        [Event.submit srvA srvB [fileE1, fileE2, fileE3, fileE4]]) (Event.cancel 3))
        [Event.finish 0 none]) 3 = some t' ∧ t'.status = Status.cancelled) :=
  ⟨⟨_, _, rfl, rfl,
    c2_transitions_allowed.1 [Event.submit srvA srvB [fileE1]] (Event.cancel 0) 0 _ _ rfl rfl⟩,
   ⟨_, rfl,
    c2_transitions_allowed.2 [Event.submit srvA srvB [fileE1, fileE2, fileE3, fileE4]]
      [Event.finish 0 none] 3 _ _ rfl rfl rfl⟩⟩

/-- Claim C3, counterexample to the claim as stated: after submitting one
file to an idle manager, the returned id resolves to a record whose status
is already active, not queued, because the admission pass runs
synchronously inside createTransfers before the ids are returned. -/
theorem c3_counterexample :
    (createTransfers init srvA srvB [fileE1]).1 = [0] ∧
    (findTransfer (createTransfers init srvA srvB [fileE1]).2 0).map Transfer.status =
      some Status.active ∧
    (findTransfer (createTransfers init srvA srvB [fileE1]).2 0).map Transfer.status ≠
      some Status.queued := by
  refine ⟨?_, ?_, ?_⟩ <;> decide

/-- Claim C3 (amended): createTransfers returns exactly one id per
submitted file, and when it returns, every returned id resolves via get
to a record whose status is queued or active (records admitted by the
synchronous admission pass are already active). -/
theorem c3_submit_spec (s : MState) (src dst : Server) (files : List FileEntry) :
    (createTransfers s src dst files).1.length = files.length ∧
    ∀ id, id ∈ (createTransfers s src dst files).1 →
      ∃ t, findTransfer (createTransfers s src dst files).2 id = some t ∧
        (t.status = Status.queued ∨ t.status = Status.active) := by
  constructor
  · exact createLoop_length files s src dst
  · intro id hid
    have hid' : id ∈ (createLoop s src dst files).1 := hid
    rcases createLoop_new_queued files s src dst id hid' with ⟨t, ht, hq⟩
    rcases processQueueAux_lookup (createLoop s src dst files).2.queue.length src dst
      (createLoop s src dst files).2 id t ht with ⟨t', ht', hc⟩
    refine ⟨t', ht', ?_⟩
    rcases hc with hc | hc
    · refine Or.inl ?_
      rw [hc]
      exact hq
    · exact Or.inr hc.2

/-- Witness for C3 at a concrete submission. -/
theorem c3_submit_spec_witness :
    ∃ t, findTransfer (createTransfers init srvA srvB [fileE1]).2 0 = some t ∧
      (t.status = Status.queued ∨ t.status = Status.active) :=
  (c3_submit_spec init srvA srvB [fileE1]).2 0 (by decide)

/-- Claim C4, evaluation at the failing input: after the A-to-B transfer
settles, its retirement admits the queued C-to-D record, but the launched
execution (the pending entry) carries servers A and B, while the record
itself stores source C and destination D. -/
theorem c4_execution_uses_callers_servers :
    (run init ces4).pending.map (fun pe => (pe.id, pe.src.id, pe.dst.id)) = [(1, "A", "B")] ∧
    (findTransfer (run init ces4) 1).map (fun t => (t.sourceServerId, t.destServerId)) =
      some ("C", "D") := by
  constructor <;> decide

/-- Claim C5: the four path-mapping examples of the specification. -/
theorem c5_path_mapping :
    buildDestPath "/a/movies/X/f.mkv" pathsA pathsB = "/b/Movies/X/f.mkv" ∧
    buildDestPath "/a/tv/Show/S01/e1.mkv" pathsA pathsB = "/b/TV/Show/S01/e1.mkv" ∧
    buildDestPath "/a/other/file.mkv" pathsA pathsB = "/b/other/file.mkv" ∧
    buildDestPath "/z/file.mkv" pathsA pathsB = "/b/file.mkv" := by
  refine ⟨?_, ?_, ?_, ?_⟩ <;> decide

/-- Claim C6: the single progress chunk of the specification parses to
exactly one sample with the stated fields, and two consecutive chunks
whose parses carry the same percentage invoke the callback only once. -/
theorem c6_progress_parsing :
    handleChunks ["1,234,567  45%  1.23MB/s  0:00:12\n"] =
      [{ transferred := 1234567, percentage := 45, speed := "1.23MB/s", eta := "0:00:12" }] ∧
    ∀ c1 c2 p1 p2, progressMatch c1 = some p1 → progressMatch c2 = some p2 →
      p1.percentage = p2.percentage → handleChunks [c1, c2] = [p1] := by
  constructor
  · decide
  · intro c1 c2 p1 p2 h1 h2 hpp
    simp [handleChunks, handleChunk, h1, h2, hpp]

/-- Witness for C6: the same chunk fed twice fires the callback once. -/
theorem c6_progress_parsing_witness :
    handleChunks ["1,234,567  45%  1.23MB/s  0:00:12\n", "1,234,567  45%  1.23MB/s  0:00:12\n"]
      = [{ transferred := 1234567, percentage := 45, speed := "1.23MB/s", eta := "0:00:12" }] :=
  c6_progress_parsing.2 _ _
    { transferred := 1234567, percentage := 45, speed := "1.23MB/s", eta := "0:00:12" }
    { transferred := 1234567, percentage := 45, speed := "1.23MB/s", eta := "0:00:12" }
    (by decide) (by decide) rfl

/-- Claim C7: on a record in a cancellable status the first cancel returns
true and the second returns false leaving the state unchanged; on a record
in a terminal status cancel returns false and changes nothing. -/
theorem c7_cancel_idempotent (s : MState) (id : Nat) (t : Transfer)
    (h : findTransfer s id = some t) :
    ((t.status = Status.queued ∨ t.status = Status.active) →
      ∃ s2, cancelTransfer s id = Except.ok (true, s2) ∧
        cancelTransfer s2 id = Except.ok (false, s2)) ∧
    ((t.status = Status.completed ∨ t.status = Status.failed ∨
      t.status = Status.cancelled ∨ t.status = Status.skipped) →
      cancelTransfer s id = Except.ok (false, s)) := by
  have h' : lookupRec s.transfers id = some t := h
  constructor
  · intro hqa
    rcases hqa with hq | ha
    · refine ⟨{ s with
                 queue := s.queue.erase id,
                 transfers := setRecord s.transfers id
                   { t with status := Status.cancelled, completedAt := some s.clock } },
               ?_, ?_⟩
      · simp only [cancelTransfer, findTransfer, h']
        rw [if_pos hq]
      · simp only [cancelTransfer, findTransfer, lookupRec_setRecord_self]
        simp
    · refine ⟨{ s with
                 transfers := setRecord s.transfers id
                   { t with status := Status.cancelled, completedAt := some s.clock },
                 activeTransfers := setDelete s.activeTransfers id },
               ?_, ?_⟩
      · simp only [cancelTransfer, findTransfer, h']
        rw [if_neg (by rw [ha]; simp), if_pos ha]
      · simp only [cancelTransfer, findTransfer, lookupRec_setRecord_self]
        simp
  · intro hterm
    have hnq : ¬ t.status = Status.queued := by
      rcases hterm with h1 | h1 | h1 | h1 <;> rw [h1] <;> simp
    have hna : ¬ t.status = Status.active := by
      rcases hterm with h1 | h1 | h1 | h1 <;> rw [h1] <;> simp
    simp only [cancelTransfer, findTransfer, h']
    rw [if_neg hnq, if_neg hna]

/-- Witness for C7 on a concrete active record. -/
theorem c7_cancel_idempotent_witness :
    ∃ s2, cancelTransfer (run init [Event.submit srvA srvB [fileE1]]) 0 =
        Except.ok (true, s2) ∧
      cancelTransfer s2 0 = Except.ok (false, s2) :=
  (c7_cancel_idempotent (run init [Event.submit srvA srvB [fileE1]]) 0 _ rfl).1 (Or.inr rfl)

/-- Claim C8: the destination base directory is the matched category when
the destination defines it, else the destination root when defined, else
one of the other defined categories. -/
theorem c8_dest_base_resolution (mt : MediaType) (dst : MediaPaths) :
    (truthy (catOf dst mt) = true → destBaseFor mt dst = catOf dst mt) ∧
    (truthy (catOf dst mt) = false → truthy dst.root = true →
      destBaseFor mt dst = dst.root) ∧
    (truthy (catOf dst mt) = false → truthy dst.root = false →
      (truthy dst.movies = true ∨ truthy dst.tv = true) →
      ∃ mt2, mt2 ≠ mt ∧ truthy (catOf dst mt2) = true ∧
        destBaseFor mt dst = catOf dst mt2) := by
  cases mt with
  | movies =>
    refine ⟨?_, ?_, ?_⟩
    · intro h1
      simp only [catOf] at h1
      simp [destBaseFor, catOf, h1]
    · intro h1 h2
      simp only [catOf] at h1
      simp [destBaseFor, catOf, jsOr, h1, h2]
    · intro h1 h2 h3
      simp only [catOf] at h1
      rcases h3 with h3 | h3
      · exact absurd (h1.symm.trans h3) (by decide)
      · exact ⟨MediaType.tv, by decide, by simpa [catOf] using h3,
          by simp [destBaseFor, catOf, jsOr, h1, h2, h3]⟩
  | tv =>
    refine ⟨?_, ?_, ?_⟩
    · intro h1
      simp only [catOf] at h1
      simp [destBaseFor, catOf, h1]
    · intro h1 h2
      simp only [catOf] at h1
      simp [destBaseFor, catOf, jsOr, h1, h2]
    · intro h1 h2 h3
      simp only [catOf] at h1
      rcases h3 with h3 | h3
      · exact ⟨MediaType.movies, by decide, by simpa [catOf] using h3,
          by simp [destBaseFor, catOf, jsOr, h1, h2, h3]⟩
      · exact absurd (h1.symm.trans h3) (by decide)
  | root =>
    refine ⟨?_, ?_, ?_⟩
    · intro h1
      simp only [catOf] at h1
      simp [destBaseFor, catOf, jsOr, h1]
    · intro h1 h2
      simp only [catOf] at h1
      exact absurd (h1.symm.trans h2) (by decide)
    · intro h1 h2 h3
      rcases h3 with h3 | h3
      · exact ⟨MediaType.movies, by decide, by simpa [catOf] using h3,
          by simp [destBaseFor, catOf, jsOr, h2, h3]⟩
      · by_cases hm : truthy dst.movies = true
        · exact ⟨MediaType.movies, by decide, by simpa [catOf] using hm,
            by simp [destBaseFor, catOf, jsOr, h2, hm]⟩
        · have hm' : truthy dst.movies = false := by
            cases hb : truthy dst.movies
            · rfl
            · exact absurd hb hm
          exact ⟨MediaType.tv, by decide, by simpa [catOf] using h3,
            by simp [destBaseFor, catOf, jsOr, h2, hm', h3]⟩

/-- Witness for C8: matched category movies undefined at the destination,
so the destination root is chosen. -/
theorem c8_dest_base_resolution_witness :
    destBaseFor MediaType.movies
        { movies := none, tv := some "/t", root := some "/r" } =
      MediaPaths.root { movies := none, tv := some "/t", root := some "/r" } :=
  (c8_dest_base_resolution MediaType.movies
    { movies := none, tv := some "/t", root := some "/r" }).2.1 (by decide) (by decide)

/-- Claim C9: a malformed submission (empty file list, identical source
and destination ids, or an unknown host id) is rejected with a validation
or not-found response and leaves the transfer table and queue unchanged. -/
theorem c9_malformed_rejected (cfg : Config) (st : MState) (sid did : Option String)
    (fs : Option (List FileEntry))
    (h : fs = some ([] : List FileEntry) ∨ sid = did ∨
      (∀ a, sid = some a → findServer cfg a = none) ∨
      (∀ b, did = some b → findServer cfg b = none)) :
    isCreated (postTransfers cfg st sid did fs).1 = false ∧
    (postTransfers cfg st sid did fs).2 = st := by
  unfold postTransfers
  split
  · rename_i a b fl
    split
    · exact ⟨rfl, rfl⟩
    · split
      · exact ⟨rfl, rfl⟩
      · rename_i hlen
        split
        · exact ⟨rfl, rfl⟩
        · rename_i srcS hfa
          split
          · exact ⟨rfl, rfl⟩
          · rename_i dstS hfb
            split
            · exact ⟨rfl, rfl⟩
            · rename_i hab
              exfalso
              rcases h with h | h | h | h
              · cases h
                exact hlen rfl
              · cases h
                exact hab rfl
              · rw [h a rfl] at hfa
                cases hfa
              · rw [h b rfl] at hfb
                cases hfb
  · exact ⟨rfl, rfl⟩

/-- Witness for C9: identical source and destination ids are rejected with
the state unchanged. -/
theorem c9_malformed_rejected_witness :
    isCreated (postTransfers { servers := [srvA, srvB] } init
      (some "A") (some "A") (some [fileE1])).1 = false ∧
    (postTransfers { servers := [srvA, srvB] } init
      (some "A") (some "A") (some [fileE1])).2 = init :=
  c9_malformed_rejected { servers := [srvA, srvB] } init
    (some "A") (some "A") (some [fileE1]) (Or.inr (Or.inl rfl))

/-- Claim C10: no operation ever assigns the status skipped, and the
statistics consequently always report zero skipped records. -/
theorem c10_no_skipped (es : List Event) :
    (∀ p, p ∈ (run init es).transfers → p.2.status ≠ Status.skipped) ∧
    (getStatistics (run init es)).skipped = 0 := by
  have h : NoSkipped (run init es) := by
    apply noSkipped_run
    intro p hp
    simp [init] at hp
  refine ⟨h, ?_⟩
  show ((run init es).transfers.filter
    (fun kt => decide (kt.2.status = Status.skipped))).length = 0
  rw [List.length_eq_zero, List.filter_eq_nil_iff]
  intro p hp
  simpa using h p hp

/-- Witness for C10 at a concrete trace and record. -/
theorem c10_no_skipped_witness :
    (getStatistics (run init [Event.submit srvA srvB [fileE1]])).skipped = 0 ∧
    ∃ p, p ∈ (run init [Event.submit srvA srvB [fileE1]]).transfers ∧
      p.2.status ≠ Status.skipped :=
  ⟨(c10_no_skipped [Event.submit srvA srvB [fileE1]]).2,
    _, List.mem_cons_self _ _,
    (c10_no_skipped [Event.submit srvA srvB [fileE1]]).1 _ (List.mem_cons_self _ _)⟩

end PTM
